import Mathlib

/-!
Verification of the CodeSnap snapshot engine against its design document.

This development shallowly embeds the storage, checkpoint, comparison,
restore and diff code of the `codesnap` package (`storage.py`,
`services/checkpoint_service.py`, `services/comparison_service.py`,
`services/restore_service.py`, `services/file_service.py`, `diff.py`,
`checkpoint_system.py`, `models.py`) and proves or refutes the stated
contracts.

Modelling conventions:
* Python `datetime` values are modelled as integers (only their total order
  is ever used by the code).
* A directory of files is an association list from file name to entry, in
  directory-enumeration order; enumeration order of `glob`/`os.walk` is
  unspecified in Python, so theorems quantify over it.
* Reading a file either succeeds with its decoded text or raises; an entry
  records which (`ReadResult`).  `None`-returning guards (`Path.exists`)
  are modelled by absence from the association list.
* Exceptions are modelled with `Except`; stateful functions return their
  final state next to the outcome, so that partial mutation before a raise
  is visible.
* `hashlib.sha256(content.encode()).hexdigest()` is embedded as a full
  executable SHA-256 over the UTF-8 encoding, producing lowercase hex.
-/

namespace CodeSnap

/-- Python exception values that the embedded code can raise.  Messages are
irrelevant to every contract proved here and are dropped. -/
inductive PyErr where
  | osError : PyErr
  | restoreError : PyErr
  | comparisonError : PyErr
  | checkpointError : PyErr
  | attributeError : PyErr
  | validationError : PyErr
deriving DecidableEq, Repr

/-- Outcome of opening and reading an existing file: either its decoded
text, or an exception (binary data, I/O fault). -/
inductive ReadResult where
  | ok (s : String) : ReadResult
  | ioError : ReadResult
deriving DecidableEq, Repr

/-- Decidable equality for `Except` outcomes, so that concrete runs can be
checked by `decide`. -/
instance [DecidableEq ε] [DecidableEq α] : DecidableEq (Except ε α) := fun x y =>
  match x, y with
  | Except.error a, Except.error b =>
    if h : a = b then isTrue (by rw [h]) else isFalse (by simp [h])
  | Except.error _, Except.ok _ => isFalse (by simp)
  | Except.ok _, Except.error _ => isFalse (by simp)
  | Except.ok a, Except.ok b =>
    if h : a = b then isTrue (by rw [h]) else isFalse (by simp [h])

/-! ### Association-list directory primitives -/

/-- First value bound to `k`, scanning in directory order. -/
def getVal (k : String) : List (String × α) → Option α
  | [] => none
  | e :: es => if e.1 = k then some e.2 else getVal k es

/-- Does a file named `k` exist (`Path.exists`)? -/
def hasKey (k : String) (d : List (String × α)) : Bool :=
  (getVal k d).isSome

/-- Remove the file named `k` (`Path.unlink`); first occurrence only, which
is the only occurrence in a real directory. -/
def eraseKey (k : String) : List (String × α) → List (String × α)
  | [] => []
  | e :: es => if e.1 = k then es else e :: eraseKey k es

/-- Overwrite the value bound to `k` if present, else append a new entry at
the end (create a new file). -/
def setVal (k : String) (v : α) (d : List (String × α)) : List (String × α) :=
  if hasKey k d then d.map (fun e => if e.1 = k then (k, v) else e)
  else d ++ [(k, v)]

/-! ### SHA-256, translated from the mathematical definition used by
`hashlib.sha256` (FIPS 180-4), over byte lists, with `Nat` words reduced
modulo `2 ^ 32`. -/

/-- The 32-bit modulus. -/
def M32 : Nat := 4294967296

/-- Rotate a 32-bit word right by `n`. -/
def rotr32 (n x : Nat) : Nat := ((x >>> n) + ((x <<< (32 - n)) % M32)) % M32

/-- Addition of 32-bit words modulo `2 ^ 32`. -/
def add32 (x y : Nat) : Nat := (x + y) % M32

/-- Bitwise choice: `(x ∧ y) ⊕ (¬x ∧ z)`. -/
def ch32 (x y z : Nat) : Nat := (x &&& y) ^^^ ((x ^^^ 4294967295) &&& z)

/-- Bitwise majority. -/
def maj32 (x y z : Nat) : Nat := ((x &&& y) ^^^ (x &&& z)) ^^^ (y &&& z)

/-- Big sigma 0. -/
def bsig0 (x : Nat) : Nat := rotr32 2 x ^^^ rotr32 13 x ^^^ rotr32 22 x

/-- Big sigma 1. -/
def bsig1 (x : Nat) : Nat := rotr32 6 x ^^^ rotr32 11 x ^^^ rotr32 25 x

/-- Small sigma 0. -/
def ssig0 (x : Nat) : Nat := rotr32 7 x ^^^ rotr32 18 x ^^^ (x >>> 3)

/-- Small sigma 1. -/
def ssig1 (x : Nat) : Nat := rotr32 17 x ^^^ rotr32 19 x ^^^ (x >>> 10)

/-- The 64 SHA-256 round constants (FIPS 180-4 section 4.2.2, written in
decimal). -/
def shaK : List Nat :=
  [1116352408, 1899447441, 3049323471, 3921009573, 961987163,
   1508970993, 2453635748, 2870763221, 3624381080, 310598401,
   607225278, 1426881987, 1925078388, 2162078206, 2614888103,
   3248222580, 3835390401, 4022224774, 264347078, 604807628,
   770255983, 1249150122, 1555081692, 1996064986, 2554220882,
   2821834349, 2952996808, 3210313671, 3336571891, 3584528711,
   113926993, 338241895, 666307205, 773529912, 1294757372,
   1396182291, 1695183700, 1986661051, 2177026350, 2456956037,
   2730485921, 2820302411, 3259730800, 3345764771, 3516065817,
   3600352804, 4094571909, 275423344, 430227734, 506948616,
   659060556, 883997877, 958139571, 1322822218, 1537002063,
   1747873779, 1955562222, 2024104815, 2227730452, 2361852424,
   2428436474, 2756734187, 3204031479, 3329325298]

/-- Working state of the compression function. -/
structure H8 where
  a : Nat
  b : Nat
  c : Nat
  d : Nat
  e : Nat
  f : Nat
  g : Nat
  h : Nat
deriving DecidableEq, Repr

/-- Initial hash state (FIPS 180-4 section 5.3.3, written in decimal). -/
def shaH0 : H8 :=
  ⟨1779033703, 3144134277, 1013904242, 2773480762,
   1359893119, 2600822924, 528734635, 1541459225⟩

/-- One compression round with round constant `k` and schedule word `w`. -/
def shaRound (s : H8) (k w : Nat) : H8 :=
  let t1 := (s.h + bsig1 s.e + ch32 s.e s.f s.g + k + w) % M32
  let t2 := (bsig0 s.a + maj32 s.a s.b s.c) % M32
  ⟨(t1 + t2) % M32, s.a, s.b, s.c, (s.d + t1) % M32, s.e, s.f, s.g⟩

/-- Extend 16 schedule words to 64. -/
def extendSchedule (ws : List Nat) : List Nat :=
  (List.range 48).foldl
    (fun acc i =>
      acc ++ [(ssig1 (acc.getD (i + 14) 0) + acc.getD (i + 9) 0 +
               ssig0 (acc.getD (i + 1) 0) + acc.getD i 0) % M32])
    ws

/-- Combine 4 bytes big-endian into a 32-bit word. -/
def word4 : List Nat → Nat
  | b0 :: b1 :: b2 :: b3 :: _ => ((b0 * 256 + b1) * 256 + b2) * 256 + b3
  | _ => 0

/-- Split a 64-byte block into 16 big-endian words. -/
def blockWords (bs : List Nat) : List Nat :=
  (List.range 16).map (fun i => word4 (bs.drop (4 * i)))

/-- Compress one 64-byte block into the running state. -/
def compressBlock (s : H8) (bs : List Nat) : H8 :=
  let w := extendSchedule (blockWords bs)
  let t := (shaK.zip w).foldl (fun st kw => shaRound st kw.1 kw.2) s
  ⟨(s.a + t.a) % M32, (s.b + t.b) % M32, (s.c + t.c) % M32, (s.d + t.d) % M32,
   (s.e + t.e) % M32, (s.f + t.f) % M32, (s.g + t.g) % M32, (s.h + t.h) % M32⟩

/-- Big-endian 8-byte encoding of a length in bits. -/
def be64 (n : Nat) : List Nat :=
  [n >>> 56 % 256, n >>> 48 % 256, n >>> 40 % 256, n >>> 32 % 256,
   n >>> 24 % 256, n >>> 16 % 256, n >>> 8 % 256, n % 256]

/-- SHA-256 padding: append `0x80`, zeros to 56 mod 64, then the bit length. -/
def shaPad (msg : List Nat) : List Nat :=
  msg ++ [0x80] ++ List.replicate ((119 - msg.length % 64) % 64) 0 ++
    be64 (8 * msg.length)

/-- Fold the compression function over consecutive 64-byte blocks.  The
fuel argument only bounds the recursion depth (so that the definition is
structural and reduces inside the kernel); `compressAll` supplies enough
fuel for the whole message, since each step consumes 64 bytes. -/
def compressBlocks (s : H8) (bs : List Nat) : Nat → H8
  | 0 => s
  | fuel + 1 =>
    match bs with
    | [] => s
    | _ :: _ => compressBlocks (compressBlock s (bs.take 64)) (bs.drop 64) fuel

/-- Run the compression over all 64-byte blocks of `bs`. -/
def compressAll (s : H8) (bs : List Nat) : H8 :=
  compressBlocks s bs (bs.length / 64 + 1)

/-- Lowercase hex digit. -/
def hexDigit (n : Nat) : Char :=
  "0123456789abcdef".toList.getD n '0'

/-- Two lowercase hex digits of a byte. -/
def hexByte (n : Nat) : List Char :=
  [hexDigit (n / 16 % 16), hexDigit (n % 16)]

/-- Lowercase hex of a 32-bit word, 8 digits. -/
def hexWord (n : Nat) : List Char :=
  hexByte (n >>> 24 % 256) ++ hexByte (n >>> 16 % 256) ++
  hexByte (n >>> 8 % 256) ++ hexByte (n % 256)

/-- SHA-256 of a byte list, as a lowercase hex string (the behaviour of
`hashlib.sha256(bytes).hexdigest()`). -/
def sha256hex (msg : List Nat) : String :=
  let s := compressAll shaH0 (shaPad msg)
  ⟨hexWord s.a ++ hexWord s.b ++ hexWord s.c ++ hexWord s.d ++
   hexWord s.e ++ hexWord s.f ++ hexWord s.g ++ hexWord s.h⟩

/-- UTF-8 encoding of one code point (`str.encode()` behaviour per char). -/
def utf8Char (c : Char) : List Nat :=
  let n := c.toNat
  if n < 0x80 then [n]
  else if n < 0x800 then [0xc0 + n / 64, 0x80 + n % 64]
  else if n < 0x10000 then
    [0xe0 + n / 4096, 0x80 + n / 64 % 64, 0x80 + n % 64]
  else
    [0xf0 + n / 262144, 0x80 + n / 4096 % 64, 0x80 + n / 64 % 64, 0x80 + n % 64]

/-- UTF-8 bytes of a string (`content.encode()`). -/
def utf8Encode (s : String) : List Nat :=
  s.data.flatMap utf8Char

/-! ### ContentStore: `StorageManager` file-snapshot operations
(`storage.py` lines 32-34 and 85-103). -/

/-- The `files` directory of the store: blob file name (hex address) mapped
to its read outcome. -/
abbrev FileStore := List (String × ReadResult)

/-- `StorageManager._get_file_hash`:
`hashlib.sha256(content.encode()).hexdigest()`. -/
def get_file_hash (content : String) : String :=
  sha256hex (utf8Encode content)

/-- `StorageManager.save_file_snapshot`: compute the address; if no file of
that name exists, write the content; return the address.  Returns the new
`files` directory next to the address. -/
def save_file_snapshot (fs : FileStore) (content : String) : FileStore × String :=
  let h := get_file_hash content
  if hasKey h fs then (fs, h) else (fs ++ [(h, ReadResult.ok content)], h)

/-- `StorageManager.load_file_snapshot`: `None` when the blob file is
absent, otherwise read it (a read fault raises). -/
def load_file_snapshot (fs : FileStore) (h : String) : Except PyErr (Option String) :=
  match getVal h fs with
  | none => Except.ok none
  | some (ReadResult.ok s) => Except.ok (some s)
  | some ReadResult.ioError => Except.error PyErr.osError

/-! ### CheckpointStore: manifests on disk (`storage.py` lines 49-82).

A manifest file `<stem>.json` is modelled as the pair of its stem and the
`Checkpoint` it deserializes to; the list order is the (unspecified)
directory enumeration order of `glob`.  JSON (de)serialization is the
identity here — no claim concerns the wire format.  `datetime` values are
embedded as integers, which preserves their total order. -/

/-- The manifest fields that the storage, comparison and restore code
reads.  (`name`/`prompt`/`metadata` and friends are carried by the Python
model but never inspected by the operations verified here.) -/
structure Checkpoint where
  id : Int
  description : String := ""
  timestamp : Int
  tags : List String := []
  /-- relative path mapped to blob address, in dict insertion order -/
  file_snapshots : List (String × String) := []
  restored_from : Option Int := none
deriving DecidableEq, Repr

/-- The `checkpoints` directory: file stem mapped to the parsed manifest,
in directory-enumeration order. -/
abbrev CheckpointDir := List (String × Checkpoint)

/-- The persistent state owned by `StorageManager`. -/
structure Storage where
  checkpoints : CheckpointDir
  files : FileStore
deriving DecidableEq, Repr

/-- `StorageManager.save_checkpoint`: write (or overwrite) the manifest at
`<id>.json`. -/
def save_checkpoint (d : CheckpointDir) (cp : Checkpoint) : CheckpointDir :=
  setVal (toString cp.id) cp d

/-- `StorageManager.load_checkpoint`: `None` when `<id>.json` is absent. -/
def load_checkpoint (d : CheckpointDir) (id : Int) : Option Checkpoint :=
  getVal (toString id) d

/-- `StorageManager.list_checkpoints`: load every `*.json` manifest in glob
order and return `sorted(checkpoints, key=lambda c: c.timestamp)`.
Python's sort is stable and keyed on the timestamp alone; extensionally
every stable sort on that key is the same function, and insertion sort
with `≤` on the key is such a stable sort. -/
def list_checkpoints (d : CheckpointDir) : List Checkpoint :=
  List.insertionSort (fun a b => a.timestamp ≤ b.timestamp) (d.map Prod.snd)

/-- Python `int(s)` on a file stem: optional sign followed by digits
(grouping underscores and surrounding whitespace, which no manifest stem
ever contains, are not modelled).  `none` when the parse raises
`ValueError`. -/
def parseIntStem (s : String) : Option Int :=
  let core := fun (ds : List Char) =>
    if ds ≠ [] ∧ ds.all Char.isDigit then
      some (ds.foldl (fun (n : Nat) c => n * 10 + (c.toNat - 48)) 0)
    else none
  match s.data with
  | '-' :: ds => (core ds).map (fun n => -(n : Int))
  | '+' :: ds => (core ds).map (fun n => (n : Int))
  | ds => (core ds).map (fun n => (n : Int))

/-- `StorageManager.get_next_checkpoint_id`: one plus the maximum integer
stem among `*.json` files, or 1 when no stem parses. -/
def get_next_checkpoint_id (d : CheckpointDir) : Int :=
  match d.filterMap (fun e => parseIntStem e.1) with
  | [] => 1
  | x :: xs => xs.foldl max x + 1

/-- The listing described by the spec (stated only to compare it with
`list_checkpoints`): keep the manifests whose stem parses as a positive
integer, sorted ascending by timestamp with id as tiebreaker. -/
def list_checkpoints_spec (d : CheckpointDir) : List Checkpoint :=
  List.insertionSort
    (fun a b => a.timestamp < b.timestamp ∨
      (a.timestamp = b.timestamp ∧ a.id ≤ b.id))
    ((d.filter (fun e => match parseIntStem e.1 with
                         | some i => decide (0 < i)
                         | none => false)).map Prod.snd)

/-! ### ProjectWalker view of the live tree (`services/file_service.py`).

The live tree under a root is an association list from relative path to
read outcome, in walk order.  `is_ignored` (literal components plus the
optional pathspec) is abstracted as a predicate on the relative path. -/

/-- `FileService.read_file_content`: `None` when the file is absent,
oversized, or unreadable (decode or OS errors are swallowed). -/
def read_file_content (live : List (String × ReadResult)) (p : String) :
    Option String :=
  match getVal p live with
  | some (ReadResult.ok s) => some s
  | _ => none

/-- `FileService.get_project_files`: every walked file whose path is not
ignored. -/
def get_project_files (live : List (String × ReadResult))
    (ign : String → Bool) : List String :=
  (live.map Prod.fst).filter (fun p => !ign p)

/-! ### `CheckpointService.create_checkpoint`
(`services/checkpoint_service.py` lines 46-94). -/

/-- The keyword arguments of the `models.Checkpoint(...)` construction at
`checkpoint_service.py` line 68 (absent keyword = field not passed). -/
structure CheckpointKwargs where
  id : Option Int := none
  name : Option String := none
  description : Option String := none
  tags : Option (List String) := none
deriving Repr

/-- Pydantic validation of a `models.Checkpoint(...)` construction.
`models.py` declares `name : str` with no default, so a construction that
omits `name` raises `ValidationError`.  (The model also declares
`id : str`, making the integer id passed by the service a second
validation error under pydantic v2; the missing `name` alone already
decides the outcome, so only it is modelled.)  On success the manifest is
built from the supplied fields with the current wall clock. -/
def pydanticCheckpoint (kw : CheckpointKwargs) (now : Int) :
    Except PyErr Checkpoint :=
  match kw.name with
  | none => Except.error PyErr.validationError
  | some _ =>
    Except.ok { id := kw.id.getD 0, description := kw.description.getD "",
                timestamp := now, tags := kw.tags.getD [],
                file_snapshots := [], restored_from := none }

namespace CheckpointService

/-- `CheckpointService.create_checkpoint`: construct the manifest (which
raises inside pydantic, see `pydanticCheckpoint`), then snapshot every
readable project file, then save.  Every raised exception is wrapped into
`CheckpointError`.  `now` is the construction wall clock; `live`/`ign`
stand for the file service's view of the project tree. -/
def create_checkpoint (σ : Storage) (live : List (String × ReadResult))
    (ign : String → Bool) (now : Int) (description : String)
    (tags : List String) : Storage × Except PyErr Checkpoint :=
  match pydanticCheckpoint
      { id := some (get_next_checkpoint_id σ.checkpoints),
        description := some description, tags := some tags } now with
  | Except.error _ => (σ, Except.error PyErr.checkpointError)
  | Except.ok cp0 =>
    let step := fun (acc : FileStore × List (String × String)) (p : String) =>
      match read_file_content live p with
      | none => acc
      | some content =>
        let fh := save_file_snapshot acc.1 content
        (fh.1, acc.2 ++ [(p, fh.2)])
    let fsnaps := (get_project_files live ign).foldl step (σ.files, [])
    let cp := { cp0 with file_snapshots := fsnaps.2 }
    ({ checkpoints := save_checkpoint σ.checkpoints cp, files := fsnaps.1 },
     Except.ok cp)

end CheckpointService

/-! ### Restore (`services/restore_service.py` and the legacy
`checkpoint_system.py`). -/

/-- Result of a restore: the store state, the live tree state, and the
returned value or raised exception. -/
structure RestoreOutcome where
  storage : Storage
  live : List (String × ReadResult)
  result : Except PyErr Bool
deriving DecidableEq, Repr

namespace RestoreService

/-- The write loop of `RestoreService.restore_checkpoint` (lines 89-102):
materialize each `(path, address)`; an absent blob is a silent skip; a
raising blob read aborts the loop (the caller wraps the exception). -/
def restore_files (fs : FileStore) (live : List (String × ReadResult)) :
    List (String × String) → List (String × ReadResult) × Except PyErr Unit
  | [] => (live, Except.ok ())
  | ph :: rest =>
    match load_file_snapshot fs ph.2 with
    | Except.error e => (live, Except.error e)
    | Except.ok none => restore_files fs live rest
    | Except.ok (some c) =>
      restore_files fs (setVal ph.1 (ReadResult.ok c) live) rest

/-- The prune loop of `RestoreService.restore_checkpoint` (lines 54-65):
every listed manifest with timestamp strictly greater than the target's is
unlinked (by its id, after an existence check). -/
def prune_dir (d : CheckpointDir) (T : Checkpoint) : CheckpointDir :=
  ((list_checkpoints d).filter (fun c => T.timestamp < c.timestamp)).foldl
    (fun d' c =>
      if hasKey (toString c.id) d' then eraseKey (toString c.id) d' else d')
    d

/-- The surplus-file deletion of `RestoreService.restore_checkpoint`
(lines 67-86): each walked non-ignored path missing from the target's
snapshot keys is unlinked.  The iteration order over the surplus-file set
is unspecified in Python (`set` difference); deletions of distinct paths
commute, and no theorem below depends on the order chosen here. -/
def delete_surplus (live : List (String × ReadResult)) (ign : String → Bool)
    (keysT : List String) : List (String × ReadResult) :=
  ((get_project_files live ign).filter (fun p => ¬ p ∈ keysT)).foldl
    (fun t p => if hasKey p t then eraseKey p t else t) live

/-- `RestoreService.restore_checkpoint` (lines 32-110): load the target
(raising `RestoreError` when absent), prune strictly-later manifests,
delete surplus live files, then materialize the target's snapshots.  Any
exception is re-raised as `RestoreError`. -/
def restore_checkpoint (σ : Storage) (live : List (String × ReadResult))
    (ign : String → Bool) (checkpoint_id : Int) : RestoreOutcome :=
  match load_checkpoint σ.checkpoints checkpoint_id with
  | none => ⟨σ, live, Except.error PyErr.restoreError⟩
  | some T =>
    match (restore_files σ.files
        (delete_surplus live ign (T.file_snapshots.map Prod.fst))
        T.file_snapshots).2 with
    | Except.error _ =>
      ⟨⟨prune_dir σ.checkpoints T, σ.files⟩,
       (restore_files σ.files
         (delete_surplus live ign (T.file_snapshots.map Prod.fst))
         T.file_snapshots).1,
       Except.error PyErr.restoreError⟩
    | Except.ok _ =>
      ⟨⟨prune_dir σ.checkpoints T, σ.files⟩,
       (restore_files σ.files
         (delete_surplus live ign (T.file_snapshots.map Prod.fst))
         T.file_snapshots).1,
       Except.ok true⟩

end RestoreService

namespace CheckpointSystem

/-- `CheckpointSystem.restore_checkpoint` (`checkpoint_system.py` lines
102-198).  When the manifest is absent it returns `False` before touching
any state.  When it is present, the very next statement calls
`self.storage.get_or_create_default_branch()`, a method `StorageManager`
does not define, so an `AttributeError` propagates with the state still
unchanged. -/
def restore_checkpoint (σ : Storage) (live : List (String × ReadResult))
    (checkpoint_id : Int) : RestoreOutcome :=
  match load_checkpoint σ.checkpoints checkpoint_id with
  | none => ⟨σ, live, Except.ok false⟩
  | some _ => ⟨σ, live, Except.error PyErr.attributeError⟩

end CheckpointSystem

/-! ### `difflib.unified_diff`, translated from the CPython standard
library, over `List String` sequences.

`diff.py` and `services/file_service.py` both call
`difflib.unified_diff(old.splitlines(keepends=True), new.splitlines(keepends=True), fromfile="old", tofile="new")`
and join the generator.  Indices are `Nat`; the algorithm never produces a
negative index (`k ≤ i - alo + 1` inside `find_longest_match`), so
truncated subtraction agrees with Python arithmetic wherever it is
reached. -/

/-- One Unicode line-break recognised by `str.splitlines`. -/
def isLineBreakChar (c : Char) : Bool :=
  c = '\n' ∨ c = '\r' ∨ c.toNat = 0x0b ∨ c.toNat = 0x0c ∨ c.toNat = 0x1c ∨
  c.toNat = 0x1d ∨ c.toNat = 0x1e ∨ c.toNat = 0x85 ∨ c.toNat = 0x2028 ∨
  c.toNat = 0x2029

/-- Worker for `splitlines`: `acc` holds the current line reversed. -/
def splitlinesGo (keepends : Bool) : List Char → List Char → List String
  | acc, [] => if acc = [] then [] else [⟨acc.reverse⟩]
  | acc, '\r' :: '\n' :: rest =>
    (⟨acc.reverse ++ if keepends then ['\r', '\n'] else []⟩ : String) ::
      splitlinesGo keepends [] rest
  | acc, c :: rest =>
    if isLineBreakChar c then
      (⟨acc.reverse ++ if keepends then [c] else []⟩ : String) ::
        splitlinesGo keepends [] rest
    else splitlinesGo keepends (c :: acc) rest

/-- Python `str.splitlines(keepends)`. -/
def splitlines (keepends : Bool) (s : String) : List String :=
  splitlinesGo keepends [] s.data

/-- Worker for `b2j` construction: the `for i, elt in enumerate(b)` loop of
`SequenceMatcher.__chain_b`, appending each index to its element's list. -/
def buildB2jGo (m : List (String × List Nat)) (j : Nat) :
    List String → List (String × List Nat)
  | [] => m
  | e :: es => buildB2jGo (setVal e ((getVal e m).getD [] ++ [j]) m) (j + 1) es

/-- The raw `b2j` mapping: element to its increasing list of positions. -/
def buildB2j (b : List String) : List (String × List Nat) :=
  buildB2jGo [] 0 b

/-- `SequenceMatcher.__chain_b` with `isjunk=None` and `autojunk=True`:
when `len(b) >= 200`, elements occurring more than `len(b)//100 + 1` times
are "popular" and dropped from `b2j` entirely. -/
def chainB (b : List String) : List (String × List Nat) :=
  let b2j := buildB2j b
  if 200 ≤ b.length then
    let ntest := b.length / 100 + 1
    let popular := (b2j.filter (fun e => ntest < e.2.length)).map Prod.fst
    b2j.filter (fun e => ¬ e.1 ∈ popular)
  else b2j

/-- Look an element up in `b2j` (`b2j.get(a[i], nothing)`). -/
def b2jGet (m : List (String × List Nat)) (e : String) : List Nat :=
  (getVal e m).getD []

/-- A candidate longest match, `(besti, bestj, bestsize)`. -/
structure Flm where
  besti : Nat
  bestj : Nat
  bestsize : Nat
deriving DecidableEq, Repr

/-- The inner `for j in b2j.get(a[i], nothing)` loop of
`find_longest_match`: `continue` below `blo`, `break` at `bhi`, and the
`newj2len[j] = j2len.get(j-1, 0) + 1` / best-update body.  `j2len` maps a
position to its current run length, defaulting to 0 (the `j = 0` guard
stands for Python's absent key `-1`). -/
def flmInner (j2len : Nat → Nat) (blo bhi i : Nat) :
    List Nat → Flm × (Nat → Nat) → Flm × (Nat → Nat)
  | [], st => st
  | j :: js, st =>
    if j < blo then flmInner j2len blo bhi i js st
    else if bhi ≤ j then st
    else
      let k := (if j = 0 then 0 else j2len (j - 1)) + 1
      let new' := fun j' => if j' = j then k else st.2 j'
      let best' :=
        if st.1.bestsize < k then (⟨i + 1 - k, j + 1 - k, k⟩ : Flm) else st.1
      flmInner j2len blo bhi i js (best', new')

/-- The outer `for i in range(alo, ahi)` loop of `find_longest_match`. -/
def flmMain (a : List String) (b2j : List (String × List Nat))
    (alo ahi blo bhi : Nat) : Flm :=
  ((List.range' alo (ahi - alo)).foldl
    (fun st i =>
      let r := flmInner st.2 blo bhi i (b2jGet b2j (a.getD i ""))
        (st.1, fun _ => 0)
      (r.1, r.2))
    ((⟨alo, blo, 0⟩ : Flm), fun _ => 0)).1

/-- Leftward extension loop of `find_longest_match` (the `while besti >
alo and ...` loop).  The fuel is exactly `besti`, which strictly decreases
on every iteration, so the loop never stops early for lack of fuel. -/
def extLeftGo (a b bjunk : List String) (alo blo : Nat) (junkPhase : Bool) :
    Nat → Flm → Flm
  | 0, st => st
  | fuel + 1, st =>
    if alo < st.besti ∧ blo < st.bestj ∧
        ((b.getD (st.bestj - 1) "" ∈ bjunk) = junkPhase) ∧
        a.getD (st.besti - 1) "" = b.getD (st.bestj - 1) "" then
      extLeftGo a b bjunk alo blo junkPhase fuel
        ⟨st.besti - 1, st.bestj - 1, st.bestsize + 1⟩
    else st

/-- Rightward extension loop of `find_longest_match`.  The fuel bounds the
growth of `bestsize` by `ahi`, which the guard also enforces, so the loop
never stops early for lack of fuel. -/
def extRightGo (a b bjunk : List String) (ahi bhi : Nat) (junkPhase : Bool) :
    Nat → Flm → Flm
  | 0, st => st
  | fuel + 1, st =>
    if st.besti + st.bestsize < ahi ∧ st.bestj + st.bestsize < bhi ∧
        ((b.getD (st.bestj + st.bestsize) "" ∈ bjunk) = junkPhase) ∧
        a.getD (st.besti + st.bestsize) "" =
          b.getD (st.bestj + st.bestsize) "" then
      extRightGo a b bjunk ahi bhi junkPhase fuel
        ⟨st.besti, st.bestj, st.bestsize + 1⟩
    else st

/-- `SequenceMatcher.find_longest_match(alo, ahi, blo, bhi)`: the dynamic
program followed by the four extension loops (non-junk left/right, then
junk left/right; `bjunk` is empty for `SequenceMatcher(None, a, b)`). -/
def find_longest_match (a b : List String) (b2j : List (String × List Nat))
    (bjunk : List String) (alo ahi blo bhi : Nat) : Flm :=
  let m0 := flmMain a b2j alo ahi blo bhi
  let m1 := extLeftGo a b bjunk alo blo false m0.besti m0
  let m2 := extRightGo a b bjunk ahi bhi false ahi m1
  let m3 := extLeftGo a b bjunk alo blo true m2.besti m2
  extRightGo a b bjunk ahi bhi true ahi m3

/-- The divide-and-conquer of `get_matching_blocks`, emitting matches in
index order (CPython uses an explicit queue and sorts afterwards; the
in-order recursion emits the same multiset).  Each level of the recursion
consumes at least one matched element of `a`, so the fuel passed by
`get_matching_blocks` (`2*(la+lb)+1`) can never run out. -/
def matchingBlocksGo (a b : List String) (b2j : List (String × List Nat))
    (bjunk : List String) : Nat → Nat → Nat → Nat → Nat → List (Nat × Nat × Nat)
  | 0, _, _, _, _ => []
  | fuel + 1, alo, ahi, blo, bhi =>
    let m := find_longest_match a b b2j bjunk alo ahi blo bhi
    if m.bestsize = 0 then []
    else
      (if alo < m.besti ∧ blo < m.bestj then
        matchingBlocksGo a b b2j bjunk fuel alo m.besti blo m.bestj
      else []) ++
      [(m.besti, m.bestj, m.bestsize)] ++
      (if m.besti + m.bestsize < ahi ∧ m.bestj + m.bestsize < bhi then
        matchingBlocksGo a b b2j bjunk fuel (m.besti + m.bestsize) ahi
          (m.bestj + m.bestsize) bhi
      else [])

/-- Lexicographic order on `(i, j, k)` triples: `matching_blocks.sort()`. -/
def tripleLe (x y : Nat × Nat × Nat) : Prop :=
  x.1 < y.1 ∨ (x.1 = y.1 ∧ (x.2.1 < y.2.1 ∨ (x.2.1 = y.2.1 ∧ x.2.2 ≤ y.2.2)))

instance : DecidableRel tripleLe := fun _ _ => by
  unfold tripleLe
  infer_instance

/-- The adjacent-block merge at the end of `get_matching_blocks`, carrying
the running `(i1, j1, k1)`. -/
def nonAdjacentGo (cur : Nat × Nat × Nat) :
    List (Nat × Nat × Nat) → List (Nat × Nat × Nat)
  | [] => if cur.2.2 ≠ 0 then [cur] else []
  | x :: rest =>
    if cur.1 + cur.2.2 = x.1 ∧ cur.2.1 + cur.2.2 = x.2.1 then
      nonAdjacentGo (cur.1, cur.2.1, cur.2.2 + x.2.2) rest
    else (if cur.2.2 ≠ 0 then [cur] else []) ++ nonAdjacentGo x rest

/-- `SequenceMatcher.get_matching_blocks` for `SequenceMatcher(None, a, b)`:
recursive longest-match decomposition, sort, adjacent merge, and the
`(la, lb, 0)` sentinel. -/
def get_matching_blocks (a b : List String) : List (Nat × Nat × Nat) :=
  let blocks := matchingBlocksGo a b (chainB b) []
    (2 * (a.length + b.length) + 1) 0 a.length 0 b.length
  nonAdjacentGo (0, 0, 0) (List.insertionSort tripleLe blocks) ++
    [(a.length, b.length, 0)]

/-- Opcode tags of `SequenceMatcher.get_opcodes`. -/
inductive OpTag where
  | replace : OpTag
  | delete : OpTag
  | insert : OpTag
  | equal : OpTag
deriving DecidableEq, Repr, Inhabited

/-- One opcode `(tag, i1, i2, j1, j2)`. -/
structure Opcode where
  tag : OpTag
  i1 : Nat
  i2 : Nat
  j1 : Nat
  j2 : Nat
deriving DecidableEq, Repr, Inhabited

/-- The loop of `get_opcodes` over the matching blocks, carrying `(i, j)`. -/
def opcodesGo (i j : Nat) : List (Nat × Nat × Nat) → List Opcode
  | [] => []
  | (ai, bj, size) :: rest =>
    (if i < ai ∧ j < bj then [⟨OpTag.replace, i, ai, j, bj⟩]
     else if i < ai then [⟨OpTag.delete, i, ai, j, bj⟩]
     else if j < bj then [⟨OpTag.insert, i, ai, j, bj⟩]
     else []) ++
    (if size ≠ 0 then [⟨OpTag.equal, ai, ai + size, bj, bj + size⟩] else []) ++
    opcodesGo (ai + size) (bj + size) rest

/-- `SequenceMatcher.get_opcodes`. -/
def get_opcodes (a b : List String) : List Opcode :=
  opcodesGo 0 0 (get_matching_blocks a b)

/-- Shrink a leading `equal` opcode to at most `n` context lines (Python's
`max(i1, i2-n)` agrees with truncated subtraction on naturals). -/
def trimHead (n : Nat) : List Opcode → List Opcode
  | ⟨OpTag.equal, i1, i2, j1, j2⟩ :: rest =>
    ⟨OpTag.equal, max i1 (i2 - n), i2, max j1 (j2 - n), j2⟩ :: rest
  | cs => cs

/-- Shrink a trailing `equal` opcode to at most `n` context lines. -/
def trimTail (n : Nat) (codes : List Opcode) : List Opcode :=
  match codes.getLast? with
  | some ⟨OpTag.equal, i1, i2, j1, j2⟩ =>
    codes.dropLast ++ [⟨OpTag.equal, i1, min i2 (i1 + n), j1, min j2 (j1 + n)⟩]
  | _ => codes

/-- The final `if group and not (len(group)==1 and group[0][0]=='equal')`
guard of `get_grouped_opcodes`. -/
def finalGroup : List Opcode → List (List Opcode)
  | [] => []
  | [g] => if g.tag = OpTag.equal then [] else [[g]]
  | gs => [gs]

/-- The grouping loop of `get_grouped_opcodes`: split around `equal` runs
longer than `2*n`, yielding completed groups. -/
def groupGo (n : Nat) (group : List Opcode) : List Opcode → List (List Opcode)
  | [] => finalGroup group
  | c :: rest =>
    if c.tag = OpTag.equal ∧ 2 * n < c.i2 - c.i1 then
      (group ++ [⟨c.tag, c.i1, min c.i2 (c.i1 + n), c.j1, min c.j2 (c.j1 + n)⟩]) ::
        groupGo n [⟨c.tag, max c.i1 (c.i2 - n), c.i2, max c.j1 (c.j2 - n), c.j2⟩]
          rest
    else groupGo n (group ++ [c]) rest

/-- `SequenceMatcher.get_grouped_opcodes(n)`. -/
def get_grouped_opcodes (n : Nat) (a b : List String) : List (List Opcode) :=
  let codes := get_opcodes a b
  let codes := if codes = [] then [⟨OpTag.equal, 0, 1, 0, 1⟩] else codes
  groupGo n [] (trimTail n (trimHead n codes))

/-- `difflib._format_range_unified`. -/
def formatRangeUnified (start stop : Nat) : String :=
  let length := stop - start
  if length = 1 then toString (start + 1)
  else if length = 0 then toString start ++ ",0"
  else toString (start + 1) ++ "," ++ toString length

/-- Python list slice `xs[i1:i2]`. -/
def pySlice (xs : List String) (i1 i2 : Nat) : List String :=
  (xs.drop i1).take (i2 - i1)

/-- The per-group line yields of `difflib.unified_diff`. -/
def groupLines (a b : List String) (lineterm : String)
    (group : List Opcode) : List String :=
  let first := group.headD default
  let last := group.getLastD default
  ("@@ -" ++ formatRangeUnified first.i1 last.i2 ++ " +" ++
    formatRangeUnified first.j1 last.j2 ++ " @@" ++ lineterm) ::
  group.flatMap (fun op =>
    if op.tag = OpTag.equal then (pySlice a op.i1 op.i2).map (" " ++ ·)
    else
      (if op.tag = OpTag.replace ∨ op.tag = OpTag.delete then
        (pySlice a op.i1 op.i2).map ("-" ++ ·)
      else []) ++
      (if op.tag = OpTag.replace ∨ op.tag = OpTag.insert then
        (pySlice b op.j1 op.j2).map ("+" ++ ·)
      else []))

/-- `difflib.unified_diff(a, b, fromfile, tofile, n=3, lineterm)` as the
list of yielded strings; the `---`/`+++` header pair is emitted before the
first group only. -/
def unified_diff (a b : List String) (fromfile tofile lineterm : String)
    (n : Nat) : List String :=
  match get_grouped_opcodes n a b with
  | [] => []
  | groups =>
    ("--- " ++ fromfile ++ lineterm) :: ("+++ " ++ tofile ++ lineterm) ::
      groups.flatMap (groupLines a b lineterm)

namespace FileService

/-- `FileService.generate_diff` (`services/file_service.py` lines 157-175):
`"".join(difflib.unified_diff(old.splitlines(True), new.splitlines(True), fromfile="old", tofile="new"))`. -/
def generate_diff (old_content new_content : String) : String :=
  String.join (unified_diff (splitlines true old_content)
    (splitlines true new_content) "old" "new" "\n" 3)

/-- Textual payload of `FileService.generate_diff_rich` (lines 177-212):
`unified_diff` over `splitlines()` without keepends, `lineterm=""`, each
yielded line appended to the rich `Text` with a trailing newline.  The
styling is out-of-band and not modelled. -/
def generate_diff_rich (old_content new_content : String) : String :=
  String.join ((unified_diff (splitlines false old_content)
    (splitlines false new_content) "old" "new" "" 3).map (· ++ "\n"))

end FileService

namespace DiffGenerator

/-- `DiffGenerator.generate_diff` (`diff.py` lines 14-32) — character for
character the same call as `FileService.generate_diff`. -/
def generate_diff (old_content new_content : String) : String :=
  String.join (unified_diff (splitlines true old_content)
    (splitlines true new_content) "old" "new" "\n" 3)

end DiffGenerator

/-! ### Comparison (`services/comparison_service.py` and the legacy
`comparator.py`). -/

/-- The `change_type` values of `models.CodeChange`. -/
inductive ChangeType where
  | added : ChangeType
  | modified : ChangeType
  | deleted : ChangeType
deriving DecidableEq, Repr

/-- `models.CodeChange`.  The `diff` slot carries the textual payload of
whichever diff variant produced it. -/
structure CodeChange where
  file_path : String
  change_type : ChangeType
  old_content : Option String
  new_content : Option String
  diff : String
deriving DecidableEq, Repr

/-- Textual payload of `DiffGenerator.generate_diff_rich` (`diff.py` lines
34-61): default `unified_diff` headers, a newline appended to every line
except `@@` hunk headers. -/
def DiffGenerator.generate_diff_rich (old_content new_content : String) : String :=
  String.join ((unified_diff (splitlines false old_content)
    (splitlines false new_content) "" "" "\n" 3).map
    (fun line => if line.startsWith "@@" then line else line ++ "\n"))

/-- One conditional load inside `_compare_files`: an absent hash yields
`None`, a present hash is loaded from the content store, and a raising
load propagates. -/
def load_opt (fs : FileStore) : Option String → Except PyErr (Option String)
  | none => Except.ok none
  | some h => load_file_snapshot fs h

/-- The two loads of `_compare_files` (both the service and the legacy
comparator), old side first. -/
def compare_files_raw (fs : FileStore) (h1? h2? : Option String) :
    Except PyErr (Option String × Option String) :=
  match load_opt fs h1? with
  | Except.error e => Except.error e
  | Except.ok o =>
    match load_opt fs h2? with
    | Except.error e => Except.error e
    | Except.ok n => Except.ok (o, n)

namespace ComparisonService

/-- The `make_diff` selector of `ComparisonService._compare_content`:
the file service's plain or rich diff. -/
def make_diff (use_rich : Bool) (a b : String) : String :=
  if use_rich then FileService.generate_diff_rich a b
  else FileService.generate_diff a b

/-- `ComparisonService._compare_content` (lines 62-119). -/
def compare_content (p : String) (old? new? : Option String)
    (use_rich : Bool) : Option CodeChange :=
  match old?, new? with
  | some o, some n =>
    if o = n then none
    else some ⟨p, ChangeType.modified, some o, some n, make_diff use_rich o n⟩
  | some o, none =>
    some ⟨p, ChangeType.deleted, some o, none, make_diff use_rich o ""⟩
  | none, some n =>
    some ⟨p, ChangeType.added, none, some n, make_diff use_rich "" n⟩
  | none, none => none

/-- `ComparisonService._compare_files` (lines 36-60): the loads and the
content comparison, with any exception re-raised as `ComparisonError`. -/
def compare_files (fs : FileStore) (p : String) (h1? h2? : Option String)
    (use_rich : Bool) : Except PyErr (Option CodeChange) :=
  match compare_files_raw fs h1? h2? with
  | Except.error _ => Except.error PyErr.comparisonError
  | Except.ok pr => Except.ok (compare_content p pr.1 pr.2 use_rich)

/-- `set(keys1) | set(keys2)`, in one particular enumeration order;
Python's set order is unspecified and no theorem below depends on it. -/
def keyUnion (k1 k2 : List String) : List String :=
  k1 ++ k2.filter (fun p => ¬ p ∈ k1)

/-- The `for file_path in all_files` loop of `compare_checkpoints`:
collect non-`None` changes, aborting on the first raised error. -/
def compare_loop (fs : FileStore) (s1 s2 : List (String × String))
    (use_rich : Bool) : List String → Except PyErr (List CodeChange)
  | [] => Except.ok []
  | p :: ps =>
    match compare_files fs p (getVal p s1) (getVal p s2) use_rich with
    | Except.error e => Except.error e
    | Except.ok c =>
      match compare_loop fs s1 s2 use_rich ps with
      | Except.error e => Except.error e
      | Except.ok l =>
        Except.ok (match c with | none => l | some ch => ch :: l)

/-- `ComparisonService.compare_checkpoints` (lines 121-158): load both
manifests (raising `ComparisonError` when either is missing) and compare
every path of either manifest. -/
def compare_checkpoints (σ : Storage) (id1 id2 : Int) (use_rich : Bool) :
    Except PyErr (List CodeChange) :=
  match load_checkpoint σ.checkpoints id1, load_checkpoint σ.checkpoints id2 with
  | some cp1, some cp2 =>
    compare_loop σ.files cp1.file_snapshots cp2.file_snapshots use_rich
      (keyUnion (cp1.file_snapshots.map Prod.fst)
        (cp2.file_snapshots.map Prod.fst))
  | _, _ => Except.error PyErr.comparisonError

/-- The per-path loop of `compare_with_current` (lines 181-202): the
snapshot side is loaded from the store (a raising load aborts the whole
comparison via the outer handler); the live side is read with the
`None`-absorbing `read_file_content`. -/
def cwc_loop (fs : FileStore) (live : List (String × ReadResult))
    (snaps : List (String × String)) (curKeys : List String)
    (use_rich : Bool) : List String → Except PyErr (List CodeChange)
  | [] => Except.ok []
  | p :: ps =>
    match load_opt fs (getVal p snaps) with
    | Except.error _ => Except.error PyErr.comparisonError
    | Except.ok co =>
      let cur := if p ∈ curKeys then read_file_content live p else none
      match cwc_loop fs live snaps curKeys use_rich ps with
      | Except.error e => Except.error e
      | Except.ok l =>
        Except.ok (match compare_content p co cur use_rich with
                   | none => l
                   | some ch => ch :: l)

/-- `ComparisonService.compare_with_current` (lines 160-212). -/
def compare_with_current (σ : Storage) (live : List (String × ReadResult))
    (ign : String → Bool) (checkpoint_id : Int) (use_rich : Bool) :
    Except PyErr (List CodeChange) :=
  match load_checkpoint σ.checkpoints checkpoint_id with
  | none => Except.error PyErr.comparisonError
  | some cp =>
    let curKeys := get_project_files live ign
    cwc_loop σ.files live cp.file_snapshots curKeys use_rich
      (keyUnion (cp.file_snapshots.map Prod.fst) curKeys)

end ComparisonService

namespace CheckpointComparator

/-- `CheckpointComparator._compare_content` (`comparator.py` lines 46-104):
same classification, diffing through `DiffGenerator`. -/
def compare_content (p : String) (old? new? : Option String)
    (use_rich : Bool) : Option CodeChange :=
  let mkd := fun (a b : String) =>
    if use_rich then DiffGenerator.generate_diff_rich a b
    else DiffGenerator.generate_diff a b
  match old?, new? with
  | some o, some n =>
    if o = n then none
    else some ⟨p, ChangeType.modified, some o, some n, mkd o n⟩
  | some o, none => some ⟨p, ChangeType.deleted, some o, none, mkd o ""⟩
  | none, some n => some ⟨p, ChangeType.added, none, some n, mkd "" n⟩
  | none, none => none

/-- The per-path loop of the legacy `compare_checkpoints` (`comparator.py`
lines 129-142): each path is compared inside its own `try`, and a raising
path is logged and skipped. -/
def compare_loop (fs : FileStore) (s1 s2 : List (String × String))
    (use_rich : Bool) : List String → List CodeChange
  | [] => []
  | p :: ps =>
    match compare_files_raw fs (getVal p s1) (getVal p s2) with
    | Except.error _ => compare_loop fs s1 s2 use_rich ps
    | Except.ok pr =>
      match compare_content p pr.1 pr.2 use_rich with
      | none => compare_loop fs s1 s2 use_rich ps
      | some ch => ch :: compare_loop fs s1 s2 use_rich ps

/-- `CheckpointComparator.compare_checkpoints` (lines 106-149): a missing
manifest yields `[]`, and no exception ever escapes. -/
def compare_checkpoints (σ : Storage) (id1 id2 : Int) (use_rich : Bool) :
    List CodeChange :=
  match load_checkpoint σ.checkpoints id1, load_checkpoint σ.checkpoints id2 with
  | some cp1, some cp2 =>
    compare_loop σ.files cp1.file_snapshots cp2.file_snapshots use_rich
      (ComparisonService.keyUnion (cp1.file_snapshots.map Prod.fst)
        (cp2.file_snapshots.map Prod.fst))
  | _, _ => []

end CheckpointComparator

/-! ### Proof-side notions for the diff analysis.

`posFrom` is the mathematical content of `buildB2j` (the ascending list of
positions of an element), `flmS` measures the diagonal runs the dynamic
program of `find_longest_match` can see when both sequences are equal, and
`FlmInv` is the outer-loop invariant used to prove that the best match on
equal sequences lies on the diagonal. -/

/-- Positions of `s` in `es`, each offset by `j`, in ascending order. -/
def posFrom (j : Nat) (es : List String) (s : String) : List Nat :=
  match es with
  | [] => []
  | e :: es => (if e = s then [j] else []) ++ posFrom (j + 1) es s

/-- Length of the maximal run of consecutive `b2j`-listed positions of `a`
ending just below `i`: the longest diagonal run the dynamic program of
`find_longest_match` can build by round `i` when both sequences are `a`. -/
def flmS (a : List String) (b2j : List (String × List Nat)) : Nat → Nat
  | 0 => 0
  | i + 1 => if b2jGet b2j (a.getD i "") = [] then 0 else flmS a b2j i + 1

/-- Invariant of the outer loop of `find_longest_match` on equal
sequences: the best candidate lies on the diagonal and fits inside `a`,
the run-length table is bounded by the diagonal runs, every completed
diagonal run is already reflected in the best size, and the table holds
the full current diagonal run. -/
def FlmInv (a : List String) (b2j : List (String × List Nat)) (i : Nat)
    (st : Flm × (Nat → Nat)) : Prop :=
  st.1.besti = st.1.bestj ∧
  st.1.besti + st.1.bestsize ≤ a.length ∧
  (∀ j, st.2 j ≤ flmS a b2j i) ∧
  (∀ j, st.2 j ≤ flmS a b2j (j + 1)) ∧
  (∀ j, j < i → flmS a b2j (j + 1) ≤ st.1.bestsize) ∧
  (∀ j, j + 1 = i → flmS a b2j i ≤ st.2 j)

/-! ## Theorems

First the shared facts about the association-list directory primitives,
then the verification of each claimed contract. -/

theorem getVal_eq_none {α} (k : String) (d : List (String × α)) :
    getVal k d = none ↔ ∀ e ∈ d, e.1 ≠ k := by
  induction d with
  | nil => simp [getVal]
  | cons e es ih =>
    by_cases h : e.1 = k <;> simp [getVal, h, ih]

theorem getVal_append_right {α} (k : String) (d d' : List (String × α))
    (h : getVal k d = none) : getVal k (d ++ d') = getVal k d' := by
  induction d with
  | nil => simp
  | cons e es ih =>
    by_cases he : e.1 = k
    · simp [getVal, he] at h
    · simp [getVal, he] at h ⊢
      exact ih h

theorem getVal_mem {α} (k : String) (d : List (String × α)) (v : α)
    (h : getVal k d = some v) : (k, v) ∈ d := by
  induction d with
  | nil => simp [getVal] at h
  | cons e es ih =>
    by_cases he : e.1 = k
    · simp [getVal, he] at h
      subst h
      cases e with
      | mk k' v =>
        simp only at he
        subst he
        exact List.mem_cons_self _ _
    · simp [getVal, he] at h
      exact List.mem_cons_of_mem _ (ih h)

theorem mem_getVal_of_nodup {α} (k : String) (v : α) (d : List (String × α))
    (hnd : (d.map Prod.fst).Nodup) (hm : (k, v) ∈ d) : getVal k d = some v := by
  induction d with
  | nil => simp at hm
  | cons e es ih =>
    simp only [List.map_cons, List.nodup_cons] at hnd
    rcases List.mem_cons.mp hm with h | h
    · subst h
      simp [getVal]
    · have hne : e.1 ≠ k := by
        intro hek
        exact hnd.1 (hek ▸ (List.mem_map.mpr ⟨(k, v), h, rfl⟩))
      simp [getVal, hne]
      exact ih hnd.2 h

theorem filter_key_nil_of_no_key {α} (k : String) (d : List (String × α))
    (h : ∀ e ∈ d, e.1 ≠ k) : d.filter (fun e => e.1 = k) = [] := by
  induction d with
  | nil => rfl
  | cons e es ih =>
    have he := h e (List.mem_cons_self _ _)
    simp only [List.filter_cons, decide_eq_true_eq]
    rw [if_neg (by simpa using he)]
    exact ih (fun x hx => h x (List.mem_cons_of_mem _ hx))

theorem filter_key_length_one {α} (k : String) (d : List (String × α))
    (hnd : (d.map Prod.fst).Nodup) (hk : hasKey k d = true) :
    (d.filter (fun e => e.1 = k)).length = 1 := by
  induction d with
  | nil => simp [hasKey, getVal] at hk
  | cons e es ih =>
    simp only [List.map_cons, List.nodup_cons] at hnd
    by_cases he : e.1 = k
    · have hnone : es.filter (fun x => x.1 = k) = [] := by
        apply filter_key_nil_of_no_key
        intro x hx hxk
        exact hnd.1 (by
          rw [he, ← hxk]
          exact List.mem_map.mpr ⟨x, hx, rfl⟩)
      simp [List.filter_cons, he, hnone]
    · have hk' : hasKey k es = true := by
        simpa [hasKey, getVal, he] using hk
      simpa [List.filter_cons, he] using ih hnd.2 hk'

/-! ### C4: content-store round-trip -/

/-- C4.  For every content string `c` and every `files` directory whose
blob at the address of `c` (if any) is exactly `c` — which is the spec's
SHA-256 collision-resistance/store-integrity assumption, and holds in
particular whenever the slot is empty — `put` then `get` round-trips:
`load_file_snapshot` at the address returned by `save_file_snapshot`
yields exactly `c`. -/
theorem c4_put_get_roundtrip (fs : FileStore) (c : String)
    (hclean : ∀ r, getVal (get_file_hash c) fs = some r → r = ReadResult.ok c) :
    load_file_snapshot (save_file_snapshot fs c).1 (save_file_snapshot fs c).2 =
      Except.ok (some c) := by
  cases hg : getVal (get_file_hash c) fs with
  | some r =>
    have hr := hclean r hg
    subst hr
    simp [save_file_snapshot, hasKey, hg, load_file_snapshot]
  | none =>
    simp only [save_file_snapshot, hasKey, hg, Option.isSome_none,
      Bool.false_eq_true, if_false, load_file_snapshot]
    rw [getVal_append_right _ _ _ hg]
    simp [getVal]

/-- Witness for C4 at the empty store and content `"hello"`. -/
theorem c4_put_get_roundtrip_witness :
    (∀ r, getVal (get_file_hash "hello") ([] : FileStore) = some r →
      r = ReadResult.ok "hello") ∧
    load_file_snapshot (save_file_snapshot ([] : FileStore) "hello").1
      (save_file_snapshot ([] : FileStore) "hello").2 =
      Except.ok (some "hello") :=
  ⟨fun r hr => by simp [getVal] at hr,
   c4_put_get_roundtrip [] "hello" (fun r hr => by simp [getVal] at hr)⟩

/-! ### C5: put is idempotent and deduplicating -/

/-- C5.  On any `files` directory (with distinct file names, as on a real
file system), two `put` calls with the same content `c` return the same
address — the lowercase-hex SHA-256 of the UTF-8 bytes of `c` — exactly
one blob file for that address exists after the first call, and the second
call leaves the directory untouched (it does not rewrite the blob). -/
theorem c5_put_idempotent_dedup (fs : FileStore) (c : String)
    (hnd : (fs.map Prod.fst).Nodup) :
    (save_file_snapshot fs c).2 = sha256hex (utf8Encode c) ∧
    (save_file_snapshot (save_file_snapshot fs c).1 c).2 =
      sha256hex (utf8Encode c) ∧
    ((save_file_snapshot fs c).1.filter
      (fun e => e.1 = sha256hex (utf8Encode c))).length = 1 ∧
    (save_file_snapshot (save_file_snapshot fs c).1 c).1 =
      (save_file_snapshot fs c).1 := by
  have haddr : ∀ g : FileStore, (save_file_snapshot g c).2 = get_file_hash c := by
    intro g
    by_cases hk : hasKey (get_file_hash c) g <;> simp [save_file_snapshot, hk]
  have hkey1 : hasKey (get_file_hash c) (save_file_snapshot fs c).1 = true := by
    by_cases hk : hasKey (get_file_hash c) fs
    · simp only [save_file_snapshot, hk, if_true]
    · have hg : getVal (get_file_hash c) fs = none := by simpa [hasKey] using hk
      have h1 : (save_file_snapshot fs c).1 =
          fs ++ [(get_file_hash c, ReadResult.ok c)] := by
        simp [save_file_snapshot, hk]
      rw [h1]
      simp only [hasKey]
      rw [getVal_append_right _ _ _ hg]
      simp [getVal]
  have hnd1 : ((save_file_snapshot fs c).1.map Prod.fst).Nodup := by
    by_cases hk : hasKey (get_file_hash c) fs
    · simpa [save_file_snapshot, hk] using hnd
    · have hg : getVal (get_file_hash c) fs = none := by simpa [hasKey] using hk
      have h1 : (save_file_snapshot fs c).1 =
          fs ++ [(get_file_hash c, ReadResult.ok c)] := by
        simp [save_file_snapshot, hk]
      rw [h1]
      simp only [List.map_append, List.nodup_append, List.map_cons, List.map_nil]
      refine ⟨hnd, List.nodup_singleton _, ?_⟩
      intro x hx
      simp only [List.mem_singleton]
      intro hx1
      rcases List.mem_map.mp hx with ⟨e, he, hek⟩
      exact ((getVal_eq_none _ _).mp hg e he) (by rw [hek, hx1])
  refine ⟨by rw [haddr]; rfl, by rw [haddr]; rfl, ?_, ?_⟩
  · have hh : (get_file_hash c) = sha256hex (utf8Encode c) := rfl
    rw [← hh]
    exact filter_key_length_one _ _ hnd1 hkey1
  · generalize hgen : (save_file_snapshot fs c).1 = g at hkey1 ⊢
    simp [save_file_snapshot, hkey1]

/-- Witness for C5 at a one-entry store (whose key is the address of a
different content) and content `"hello"`. -/
theorem c5_put_idempotent_dedup_witness :
    ((([("other", ReadResult.ok "other")] : FileStore).map Prod.fst).Nodup) ∧
    (save_file_snapshot [("other", ReadResult.ok "other")] "hello").2 =
      sha256hex (utf8Encode "hello") :=
  ⟨by decide,
   (c5_put_idempotent_dedup [("other", ReadResult.ok "other")] "hello"
     (by decide)).1⟩

/-! ### C6: checkpoint-id monotonicity — refuted by a model/service
mismatch.

`models.Checkpoint` declares `name : str` with no default (and `id : str`),
while `CheckpointService.create_checkpoint` constructs
`Checkpoint(id=<int>, description=..., prompt=..., tags=...)` with no
`name`: pydantic rejects every such construction, the `except` clause
wraps it into `CheckpointError`, and no checkpoint id is ever assigned.
The service's own tests (`tests/test_checkpoint_service.py`,
`tests/test_models.py`) expect these constructions to succeed, so this is
a defect of the code, not of the claim. -/

/-- C6 (code-bug evidence).  Every `CheckpointService.create_checkpoint`
call — whatever the store, project tree, clock or arguments — raises
`CheckpointError` and leaves the store unchanged, so the claimed
strictly-increasing id assignment never happens. -/
theorem c6_create_checkpoint_always_raises (σ : Storage)
    (live : List (String × ReadResult)) (ign : String → Bool) (now : Int)
    (description : String) (tags : List String) :
    CheckpointService.create_checkpoint σ live ign now description tags =
      (σ, Except.error PyErr.checkpointError) := rfl

/-! ### C3: restoring an absent checkpoint -/

/-- C3 counterexample.  On the empty store,
`RestoreService.restore_checkpoint(1)` raises `RestoreError` — it does not
return `false` as claimed (the `false` return belongs to the legacy
`CheckpointSystem` entry point). -/
theorem c3_counterexample :
    RestoreService.restore_checkpoint ⟨[], []⟩ [] (fun _ => false) 1 =
      ⟨⟨[], []⟩, [], Except.error PyErr.restoreError⟩ ∧
    (Except.error PyErr.restoreError : Except PyErr Bool) ≠ Except.ok false := by
  exact ⟨rfl, by decide⟩

/-- C3 amended.  For every checkpoint id whose manifest is absent:
`CheckpointSystem.restore_checkpoint` returns `false`, while
`RestoreService.restore_checkpoint` raises `RestoreError`; both leave the
checkpoint store, the blob store and the live tree unchanged. -/
theorem c3_absent_checkpoint (σ : Storage) (live : List (String × ReadResult))
    (ign : String → Bool) (checkpoint_id : Int)
    (habs : load_checkpoint σ.checkpoints checkpoint_id = none) :
    RestoreService.restore_checkpoint σ live ign checkpoint_id =
      ⟨σ, live, Except.error PyErr.restoreError⟩ ∧
    CheckpointSystem.restore_checkpoint σ live checkpoint_id =
      ⟨σ, live, Except.ok false⟩ := by
  unfold RestoreService.restore_checkpoint CheckpointSystem.restore_checkpoint
  rw [habs]
  exact ⟨rfl, rfl⟩

/-- Witness for C3 (amended) at the empty store and id 1. -/
theorem c3_absent_checkpoint_witness :
    load_checkpoint (([] : CheckpointDir)) 1 = none ∧
    CheckpointSystem.restore_checkpoint ⟨[], []⟩ [] 1 =
      ⟨⟨[], []⟩, [], Except.ok false⟩ :=
  ⟨rfl, (c3_absent_checkpoint ⟨[], []⟩ [] (fun _ => false) 1 rfl).2⟩

/-! ### C7: listing order -/

/-- Stability of insertion by `≤` on timestamps: inserting `a` leaves the
equal-timestamp subsequence of `l` intact, with `a` in front of it exactly
when `a` carries that timestamp. -/
theorem filter_orderedInsert_ts (t : Int) (a : Checkpoint)
    (l : List Checkpoint) :
    (List.orderedInsert (fun x y => x.timestamp ≤ y.timestamp) a l).filter
      (fun c => c.timestamp = t) =
    if a.timestamp = t then
      a :: l.filter (fun c => c.timestamp = t)
    else l.filter (fun c => c.timestamp = t) := by
  induction l with
  | nil =>
    by_cases hat : a.timestamp = t <;>
      simp [List.orderedInsert, List.filter, hat]
  | cons b l ih =>
    simp only [List.orderedInsert]
    by_cases hab : a.timestamp ≤ b.timestamp
    · rw [if_pos hab]
      by_cases hat : a.timestamp = t <;> by_cases hbt' : b.timestamp = t <;>
        simp [List.filter, hat, hbt']
    · rw [if_neg hab]
      have hbt : b.timestamp < a.timestamp := lt_of_not_le hab
      by_cases hat : a.timestamp = t
      · have hbne : ¬ b.timestamp = t := by
          intro hb
          rw [hat] at hbt
          rw [hb] at hbt
          exact lt_irrefl _ hbt
        simp [List.filter, hat, hbne, ih]
      · by_cases hbt' : b.timestamp = t <;>
          simp [List.filter, hat, hbt', ih]

/-- Stability of the timestamp sort: each equal-timestamp class keeps its
input order. -/
theorem filter_insertionSort_ts (t : Int) (l : List Checkpoint) :
    (List.insertionSort (fun x y => x.timestamp ≤ y.timestamp) l).filter
      (fun c => c.timestamp = t) = l.filter (fun c => c.timestamp = t) := by
  induction l with
  | nil => rfl
  | cons a l ih =>
    by_cases hat : a.timestamp = t <;>
      simp [List.insertionSort, filter_orderedInsert_ts, hat, ih, List.filter]

/-- C7 counterexample.  A directory holding two equal-timestamp manifests
in reverse id order plus a manifest under the non-integer stem `"abc"`:
`list_checkpoints` keeps the glob order for the tie (id 2 before id 1) and
loads the `"abc"` manifest, so it differs from the spec's listing (ids as
tiebreaker, non-positive-integer stems ignored). -/
theorem c7_counterexample :
    list_checkpoints
        [("2", ⟨2, "", 5, [], [], none⟩), ("1", ⟨1, "", 5, [], [], none⟩),
         ("abc", ⟨7, "", 1, [], [], none⟩)] =
      [⟨7, "", 1, [], [], none⟩, ⟨2, "", 5, [], [], none⟩,
       ⟨1, "", 5, [], [], none⟩] ∧
    list_checkpoints_spec
        [("2", ⟨2, "", 5, [], [], none⟩), ("1", ⟨1, "", 5, [], [], none⟩),
         ("abc", ⟨7, "", 1, [], [], none⟩)] =
      [⟨1, "", 5, [], [], none⟩, ⟨2, "", 5, [], [], none⟩] ∧
    list_checkpoints
        [("2", ⟨2, "", 5, [], [], none⟩), ("1", ⟨1, "", 5, [], [], none⟩),
         ("abc", ⟨7, "", 1, [], [], none⟩)] ≠
      list_checkpoints_spec
        [("2", ⟨2, "", 5, [], [], none⟩), ("1", ⟨1, "", 5, [], [], none⟩),
         ("abc", ⟨7, "", 1, [], [], none⟩)] := by
  refine ⟨by decide, by decide, by decide⟩

/-- Listing a directory neither adds nor drops manifests. -/
theorem mem_list_checkpoints (d : CheckpointDir) (c : Checkpoint) :
    c ∈ list_checkpoints d ↔ c ∈ d.map Prod.snd := by
  unfold list_checkpoints
  constructor
  · exact fun h => (List.perm_insertionSort _ _).subset h
  · exact fun h => (List.perm_insertionSort _ _).symm.subset h

/-- Distinct entries of a nodup-keyed directory have distinct keys. -/
theorem nodup_key_inj {α} (d : List (String × α))
    (hnd : (d.map Prod.fst).Nodup) (e e' : String × α)
    (he : e ∈ d) (he' : e' ∈ d) (hk : e.1 = e'.1) : e = e' := by
  have h1 : getVal e.1 d = some e.2 := mem_getVal_of_nodup _ _ _ hnd he
  have h2 : getVal e'.1 d = some e'.2 := mem_getVal_of_nodup _ _ _ hnd he'
  rw [← hk] at h2
  rw [h1] at h2
  cases e with
  | mk a b =>
    cases e' with
    | mk a' b' =>
      simp only at hk
      simp only [Option.some.injEq] at h2
      rw [hk, h2]

/-- A directory without the name `k` is unchanged by filtering `k` out. -/
theorem filter_ne_key_eq_self {α} (k : String) (d : List (String × α))
    (h : ∀ e ∈ d, e.1 ≠ k) : d.filter (fun e => !decide (e.1 = k)) = d := by
  rw [List.filter_eq_self]
  intro a ha
  simp only [Bool.not_eq_true', decide_eq_false_iff_not]
  exact h a ha

/-- Unlinking on a nodup-keyed directory is filtering the name out. -/
theorem eraseKey_eq_filter {α} (k : String) (d : List (String × α))
    (hnd : (d.map Prod.fst).Nodup) :
    eraseKey k d = d.filter (fun e => !decide (e.1 = k)) := by
  induction d with
  | nil => rfl
  | cons e es ih =>
    simp only [List.map_cons, List.nodup_cons] at hnd
    by_cases he : e.1 = k
    · have hno : ∀ x ∈ es, x.1 ≠ k := by
        intro x hx hxk
        exact hnd.1 (by rw [he, ← hxk]; exact List.mem_map.mpr ⟨x, hx, rfl⟩)
      simp only [eraseKey, he, if_true]
      rw [List.filter_cons, if_neg (by simp [he])]
      exact (filter_ne_key_eq_self k es hno).symm
    · rw [show eraseKey k (e :: es) = e :: eraseKey k es by simp [eraseKey, he]]
      rw [List.filter_cons, if_pos (by simp [he])]
      rw [ih hnd.2]

/-- The checked unlink (`if exists then unlink`) is also filtering: when
the name is absent both sides are the identity. -/
theorem eraseStep_eq_filter {α} (k : String) (d : List (String × α))
    (hnd : (d.map Prod.fst).Nodup) :
    (if hasKey k d then eraseKey k d else d) =
      d.filter (fun e => !decide (e.1 = k)) := by
  by_cases hk : hasKey k d
  · rw [if_pos hk]
    exact eraseKey_eq_filter k d hnd
  · rw [if_neg hk]
    have hg : getVal k d = none := by simpa [hasKey] using hk
    exact (filter_ne_key_eq_self k d ((getVal_eq_none _ _).mp hg)).symm

/-- A sequence of checked unlinks on a nodup-keyed directory removes
exactly the named entries. -/
theorem foldl_eraseStep_eq_filter {α} (ks : List String) :
    ∀ d : List (String × α), (d.map Prod.fst).Nodup →
    ks.foldl (fun t k => if hasKey k t then eraseKey k t else t) d =
      d.filter (fun e => !decide (e.1 ∈ ks)) := by
  induction ks with
  | nil =>
    intro d _
    simp
  | cons k ks ih =>
    intro d hnd
    have hnd' : ((d.filter (fun e => !decide (e.1 = k))).map Prod.fst).Nodup :=
      List.Nodup.sublist (List.Sublist.map _ (List.filter_sublist d)) hnd
    rw [List.foldl_cons]
    rw [eraseStep_eq_filter k d hnd]
    rw [ih _ hnd']
    rw [List.filter_filter]
    apply List.filter_congr
    intro e _
    by_cases h1 : e.1 = k <;> by_cases h2 : e.1 ∈ ks <;> simp [h1, h2]

theorem getVal_append {α} (k : String) (d d' : List (String × α)) :
    getVal k (d ++ d') =
      match getVal k d with
      | some v => some v
      | none => getVal k d' := by
  induction d with
  | nil => simp [getVal]
  | cons e es ih =>
    by_cases he : e.1 = k <;> simp [getVal, he, ih]

theorem getVal_overwrite_map {α} (k k' : String) (v : α)
    (d : List (String × α)) (hne : k' ≠ k) :
    getVal k' (d.map (fun e => if e.1 = k then (k, v) else e)) =
      getVal k' d := by
  induction d with
  | nil => rfl
  | cons e es ih =>
    simp only [List.map_cons, getVal]
    by_cases hek : e.1 = k
    · rw [if_pos hek]
      have h1 : ¬ ((k, v) : String × α).1 = k' := fun h => hne (h.symm)
      have h2 : ¬ e.1 = k' := fun h => hne (by rw [← h, hek])
      rw [if_neg h1, if_neg h2]
      exact ih
    · rw [if_neg hek]
      by_cases he : e.1 = k'
      · rw [if_pos he, if_pos he]
      · rw [if_neg he, if_neg he]
        exact ih

theorem getVal_setVal_self {α} (k : String) (v : α) (d : List (String × α)) :
    getVal k (setVal k v d) = some v := by
  by_cases hk : hasKey k d
  · simp only [setVal, hk, if_true]
    induction d with
    | nil => simp [hasKey, getVal] at hk
    | cons e es ih =>
      by_cases he : e.1 = k
      · simp [getVal, he]
      · have hk' : hasKey k es = true := by simpa [hasKey, getVal, he] using hk
        simpa [getVal, he] using ih hk'
  · have hg : getVal k d = none := by simpa [hasKey] using hk
    simp only [setVal]
    rw [if_neg hk]
    rw [getVal_append, hg]
    simp [getVal]

theorem getVal_setVal_ne {α} (k k' : String) (v : α) (d : List (String × α))
    (hne : k' ≠ k) : getVal k' (setVal k v d) = getVal k' d := by
  by_cases hk : hasKey k d
  · simp only [setVal, hk, if_true]
    exact getVal_overwrite_map k k' v d hne
  · simp only [setVal]
    rw [if_neg hk]
    rw [getVal_append]
    cases hg : getVal k' d with
    | some v' => rfl
    | none =>
      simp only [getVal]
      rw [if_neg (fun h : k = k' => hne h.symm)]

theorem mem_keys_setVal {α} (q k : String) (v : α) (d : List (String × α))
    (h : q ∈ (setVal k v d).map Prod.fst) : q = k ∨ q ∈ d.map Prod.fst := by
  by_cases hk : hasKey k d
  · simp only [setVal, hk, if_true] at h
    rcases List.mem_map.mp h with ⟨e, he, hq⟩
    rcases List.mem_map.mp he with ⟨e', he', hee⟩
    by_cases hk' : e'.1 = k
    · left
      rw [← hq, ← hee]
      simp [hk']
    · right
      rw [← hq, ← hee]
      simp only [hk', if_false]
      exact List.mem_map.mpr ⟨e', he', rfl⟩
  · simp only [setVal] at h
    rw [if_neg hk] at h
    rw [List.map_append] at h
    rcases List.mem_append.mp h with h | h
    · right
      exact h
    · left
      simpa using h

/-! ### Facts about the restore write loop -/

theorem restore_files_ok (fs : FileStore) (live : List (String × ReadResult))
    (snaps : List (String × String))
    (hres : ∀ e ∈ snaps, ∃ c, getVal e.2 fs = some (ReadResult.ok c)) :
    (RestoreService.restore_files fs live snaps).2 = Except.ok () := by
  induction snaps generalizing live with
  | nil => rfl
  | cons ph rest ih =>
    rcases hres ph (List.mem_cons_self _ _) with ⟨c, hc⟩
    simp only [RestoreService.restore_files, load_file_snapshot, hc]
    exact ih _ (fun e he => hres e (List.mem_cons_of_mem _ he))

theorem restore_files_getVal_not_mem (fs : FileStore)
    (live : List (String × ReadResult)) (snaps : List (String × String))
    (q : String) (hq : ¬ q ∈ snaps.map Prod.fst) :
    getVal q (RestoreService.restore_files fs live snaps).1 = getVal q live := by
  induction snaps generalizing live with
  | nil => rfl
  | cons ph rest ih =>
    have hq1 : ¬ ph.1 = q := by
      intro h
      exact hq (by rw [← h]; exact List.mem_map.mpr ⟨ph, List.mem_cons_self _ _, rfl⟩)
    have hqr : ¬ q ∈ rest.map Prod.fst := fun h =>
      hq (by simp [List.map_cons, h])
    cases hl : load_file_snapshot fs ph.2 with
    | error e => simp [RestoreService.restore_files, hl]
    | ok o =>
      cases o with
      | none => simpa [RestoreService.restore_files, hl] using ih live hqr
      | some c =>
        simp only [RestoreService.restore_files, hl]
        rw [ih _ hqr]
        exact getVal_setVal_ne _ _ _ _ (fun h => hq1 h.symm)

theorem restore_files_getVal_mem (fs : FileStore)
    (live : List (String × ReadResult)) (snaps : List (String × String))
    (hres : ∀ e ∈ snaps, ∃ c, getVal e.2 fs = some (ReadResult.ok c))
    (hnd : (snaps.map Prod.fst).Nodup) :
    ∀ p h, (p, h) ∈ snaps → ∃ c, getVal h fs = some (ReadResult.ok c) ∧
      getVal p (RestoreService.restore_files fs live snaps).1 =
        some (ReadResult.ok c) := by
  induction snaps generalizing live with
  | nil =>
    intro p h hm
    simp at hm
  | cons ph rest ih =>
    simp only [List.map_cons, List.nodup_cons] at hnd
    intro p h hm
    rcases List.mem_cons.mp hm with hm | hm
    · subst hm
      rcases hres (p, h) (List.mem_cons_self _ _) with ⟨c, hc⟩
      refine ⟨c, hc, ?_⟩
      have hstep : RestoreService.restore_files fs live ((p, h) :: rest) =
          RestoreService.restore_files fs (setVal p (ReadResult.ok c) live)
            rest := by
        simp [RestoreService.restore_files, load_file_snapshot, hc]
      rw [hstep]
      rw [restore_files_getVal_not_mem fs _ rest p (by simpa using hnd.1)]
      exact getVal_setVal_self _ _ _
    · rcases hres ph (List.mem_cons_self _ _) with ⟨c0, hc0⟩
      have hstep : RestoreService.restore_files fs live (ph :: rest) =
          RestoreService.restore_files fs (setVal ph.1 (ReadResult.ok c0) live)
            rest := by
        simp [RestoreService.restore_files, load_file_snapshot, hc0]
      rw [hstep]
      exact ih _ (fun e he => hres e (List.mem_cons_of_mem _ he)) hnd.2 p h hm

theorem restore_files_keys (fs : FileStore)
    (live : List (String × ReadResult)) (snaps : List (String × String))
    (q : String)
    (h : q ∈ (RestoreService.restore_files fs live snaps).1.map Prod.fst) :
    q ∈ live.map Prod.fst ∨ q ∈ snaps.map Prod.fst := by
  induction snaps generalizing live with
  | nil => exact Or.inl h
  | cons ph rest ih =>
    cases hl : load_file_snapshot fs ph.2 with
    | error e =>
      left
      simpa [RestoreService.restore_files, hl] using h
    | ok o =>
      cases o with
      | none =>
        rw [show (RestoreService.restore_files fs live (ph :: rest)) =
          RestoreService.restore_files fs live rest by
            simp [RestoreService.restore_files, hl]] at h
        rcases ih live h with h | h
        · exact Or.inl h
        · right
          simp [h]
      | some c =>
        rw [show (RestoreService.restore_files fs live (ph :: rest)) =
          RestoreService.restore_files fs (setVal ph.1 (ReadResult.ok c) live)
            rest by simp [RestoreService.restore_files, hl]] at h
        rcases ih _ h with h | h
        · rcases mem_keys_setVal q ph.1 _ live h with h | h
          · right
            simp [h]
          · exact Or.inl h
        · right
          simp [h]

/-! ### C1: post-restore equivalence -/

/-- C1 counterexample.  With a manifest whose single snapshot address is
dangling (no blob in the content store), `restore_checkpoint` still
returns `true` (the missing blob is a silent per-file skip, restore
section 4.5.4 step 5), yet the snapshot path does not exist under the
restore root afterwards — so the claim as stated fails on a corrupt
store. -/
theorem c1_counterexample :
    (RestoreService.restore_checkpoint
      ⟨[("1", ⟨1, "", 5, [], [("a.txt", "h1")], none⟩)], []⟩
      [] (fun _ => false) 1).result = Except.ok true ∧
    ("a.txt", "h1") ∈
      (⟨1, "", 5, [], [("a.txt", "h1")], none⟩ : Checkpoint).file_snapshots ∧
    getVal "a.txt"
      (RestoreService.restore_checkpoint
        ⟨[("1", ⟨1, "", 5, [], [("a.txt", "h1")], none⟩)], []⟩
        [] (fun _ => false) 1).live = none := by
  refine ⟨by decide, by decide, by decide⟩

/-- C1 amended.  If every address of `T.file_snapshots` resolves to a
readable blob and the content store is hash-consistent (each blob's
SHA-256 hex equals its file name — true of every blob `put` wrote), then
after `restore_checkpoint` (which returns `true`): every snapshot path
exists in the live tree with exactly the blob's content, whose SHA-256
equals the recorded address; and — unconditionally — every non-ignored
path of the resulting live tree is a key of `T.file_snapshots`. -/
theorem c1_post_restore_equivalence (σ : Storage)
    (live : List (String × ReadResult)) (ign : String → Bool)
    (checkpoint_id : Int) (T : Checkpoint)
    (hload : load_checkpoint σ.checkpoints checkpoint_id = some T)
    (hres : ∀ e ∈ T.file_snapshots, ∃ c,
      getVal e.2 σ.files = some (ReadResult.ok c))
    (hint : ∀ h c, getVal h σ.files = some (ReadResult.ok c) →
      sha256hex (utf8Encode c) = h)
    (hndS : (T.file_snapshots.map Prod.fst).Nodup)
    (hndL : (live.map Prod.fst).Nodup) :
    (RestoreService.restore_checkpoint σ live ign checkpoint_id).result =
      Except.ok true ∧
    (∀ p h, (p, h) ∈ T.file_snapshots → ∃ c,
      getVal h σ.files = some (ReadResult.ok c) ∧
      getVal p (RestoreService.restore_checkpoint σ live ign
        checkpoint_id).live = some (ReadResult.ok c) ∧
      sha256hex (utf8Encode c) = h) ∧
    (∀ p, p ∈ (RestoreService.restore_checkpoint σ live ign
        checkpoint_id).live.map Prod.fst → ign p = false →
      p ∈ T.file_snapshots.map Prod.fst) := by
  have hok : (RestoreService.restore_files σ.files
      (RestoreService.delete_surplus live ign (T.file_snapshots.map Prod.fst))
      T.file_snapshots).2 = Except.ok () := restore_files_ok _ _ _ hres
  have hre : RestoreService.restore_checkpoint σ live ign checkpoint_id =
      ⟨⟨RestoreService.prune_dir σ.checkpoints T, σ.files⟩,
       (RestoreService.restore_files σ.files
         (RestoreService.delete_surplus live ign
           (T.file_snapshots.map Prod.fst)) T.file_snapshots).1,
       Except.ok true⟩ := by
    unfold RestoreService.restore_checkpoint
    rw [hload]
    dsimp only
    rw [hok]
  rw [hre]
  refine ⟨rfl, ?_, ?_⟩
  · intro p h hm
    rcases restore_files_getVal_mem σ.files
      (RestoreService.delete_surplus live ign (T.file_snapshots.map Prod.fst))
      T.file_snapshots hres hndS p h hm with ⟨c, hcf, hcl⟩
    exact ⟨c, hcf, hcl, hint h c hcf⟩
  · intro p hp hig
    rcases restore_files_keys _ _ _ p hp with hp | hp
    · have hfl : RestoreService.delete_surplus live ign
          (T.file_snapshots.map Prod.fst) =
          live.filter (fun e => !decide (e.1 ∈
            (get_project_files live ign).filter
              (fun q => ¬ q ∈ T.file_snapshots.map Prod.fst))) := by
        unfold RestoreService.delete_surplus
        exact foldl_eraseStep_eq_filter _ _ hndL
      rw [hfl] at hp
      rcases List.mem_map.mp hp with ⟨e, he, hep⟩
      rcases List.mem_filter.mp he with ⟨hel, hef⟩
      by_cases hmem : p ∈ T.file_snapshots.map Prod.fst
      · exact hmem
      · exfalso
        have hpl : p ∈ live.map Prod.fst := List.mem_map.mpr ⟨e, hel, hep⟩
        have hgp : p ∈ get_project_files live ign := by
          unfold get_project_files
          exact List.mem_filter.mpr ⟨hpl, by simp [hig]⟩
        have hdel : p ∈ (get_project_files live ign).filter
            (fun q => ¬ q ∈ T.file_snapshots.map Prod.fst) :=
          List.mem_filter.mpr ⟨hgp, by simpa using hmem⟩
        rw [hep] at hef
        simp only [Bool.not_eq_true', decide_eq_false_iff_not] at hef
        exact hef hdel
    · exact hp

/-- Witness for C1 (amended): a one-file manifest whose blob is present
and hash-consistent; after the restore the file holds the blob content. -/
theorem c1_post_restore_equivalence_witness :
    (∀ e ∈ ([("a.txt", sha256hex (utf8Encode "v1"))] : List (String × String)),
      ∃ c, getVal e.2
        ([(sha256hex (utf8Encode "v1"), ReadResult.ok "v1")] : FileStore) =
        some (ReadResult.ok c)) ∧
    getVal "a.txt"
      (RestoreService.restore_checkpoint
        ⟨[("1", ⟨1, "", 5, [],
           [("a.txt", sha256hex (utf8Encode "v1"))], none⟩)],
         [(sha256hex (utf8Encode "v1"), ReadResult.ok "v1")]⟩
        [("b.txt", ReadResult.ok "old")] (fun _ => false) 1).live =
      some (ReadResult.ok "v1") := by
  have hint : ∀ h c, getVal h
      ([(sha256hex (utf8Encode "v1"), ReadResult.ok "v1")] : FileStore) =
      some (ReadResult.ok c) → sha256hex (utf8Encode c) = h := by
    intro h c hx
    simp only [getVal] at hx
    split at hx
    · next heq =>
      simp only [Option.some.injEq, ReadResult.ok.injEq] at hx
      rw [← hx, ← heq]
    · exact absurd hx (by simp)
  have hres : ∀ e ∈ ([("a.txt", sha256hex (utf8Encode "v1"))] :
      List (String × String)), ∃ c, getVal e.2
      ([(sha256hex (utf8Encode "v1"), ReadResult.ok "v1")] : FileStore) =
      some (ReadResult.ok c) := by
    intro e he
    simp only [List.mem_singleton] at he
    subst he
    refine ⟨"v1", ?_⟩
    simp [getVal]
  have hmain := c1_post_restore_equivalence
    ⟨[("1", ⟨1, "", 5, [], [("a.txt", sha256hex (utf8Encode "v1"))], none⟩)],
     [(sha256hex (utf8Encode "v1"), ReadResult.ok "v1")]⟩
    [("b.txt", ReadResult.ok "old")] (fun _ => false) 1
    ⟨1, "", 5, [], [("a.txt", sha256hex (utf8Encode "v1"))], none⟩
    rfl hres hint (List.nodup_singleton _) (List.nodup_singleton _)
  rcases hmain.2.1 "a.txt" (sha256hex (utf8Encode "v1"))
    (List.mem_singleton.mpr rfl) with ⟨c, hcf, hcl, _⟩
  have hc : c = "v1" := by
    simp only [getVal] at hcf
    rw [if_pos trivial] at hcf
    simp only [Option.some.injEq, ReadResult.ok.injEq] at hcf
    exact hcf.symm
  subst hc
  exact ⟨hres, hcl⟩

/-! ### C2: restore prunes exactly the strict descendants -/

/-- C2.  After `RestoreService.restore_checkpoint` succeeds in loading the
target `T` from a well-formed checkpoint directory (each manifest is
stored under its own id, names distinct — which is how `save_checkpoint`
writes them), the resulting checkpoint directory is exactly the original
with every manifest of timestamp strictly greater than `T.timestamp`
removed: descendants are gone, `T` itself and every manifest with
timestamp at most `T.timestamp` remain in place, and the blob directory is
untouched. -/
theorem c2_restore_prunes_descendants (σ : Storage)
    (live : List (String × ReadResult)) (ign : String → Bool)
    (checkpoint_id : Int) (T : Checkpoint)
    (hload : load_checkpoint σ.checkpoints checkpoint_id = some T)
    (hwf : ∀ e ∈ σ.checkpoints, e.1 = toString e.2.id)
    (hnd : (σ.checkpoints.map Prod.fst).Nodup) :
    (RestoreService.restore_checkpoint σ live ign
        checkpoint_id).storage.checkpoints =
      σ.checkpoints.filter (fun e => e.2.timestamp ≤ T.timestamp) ∧
    (RestoreService.restore_checkpoint σ live ign
        checkpoint_id).storage.files = σ.files ∧
    (toString checkpoint_id, T) ∈
      (RestoreService.restore_checkpoint σ live ign
        checkpoint_id).storage.checkpoints := by
  have hst : (RestoreService.restore_checkpoint σ live ign
      checkpoint_id).storage = ⟨RestoreService.prune_dir σ.checkpoints T,
        σ.files⟩ := by
    unfold RestoreService.restore_checkpoint
    rw [hload]
    dsimp only
    cases (RestoreService.restore_files σ.files
        (RestoreService.delete_surplus live ign
          (T.file_snapshots.map Prod.fst)) T.file_snapshots).2 <;> rfl
  have hdel : RestoreService.prune_dir σ.checkpoints T =
      σ.checkpoints.filter (fun e => e.2.timestamp ≤ T.timestamp) := by
    unfold RestoreService.prune_dir
    rw [← List.foldl_map (fun c : Checkpoint => toString c.id)
      (fun t k => if hasKey k t then eraseKey k t else t)]
    rw [foldl_eraseStep_eq_filter _ _ hnd]
    apply List.filter_congr
    intro e he
    have hiff : (e.1 ∈ ((list_checkpoints σ.checkpoints).filter
        (fun c => decide (T.timestamp < c.timestamp))).map
        (fun c => toString c.id)) ↔ T.timestamp < e.2.timestamp := by
      constructor
      · intro hmem
        rcases List.mem_map.mp hmem with ⟨c, hc, hck⟩
        rcases List.mem_filter.mp hc with ⟨hcl, hct⟩
        have hcv : c ∈ σ.checkpoints.map Prod.snd :=
          (mem_list_checkpoints _ _).mp hcl
        rcases List.mem_map.mp hcv with ⟨e', he', hce⟩
        have hke : e'.1 = e.1 := by
          rw [hwf e' he', hce, hck]
        have hee : e' = e := nodup_key_inj _ hnd e' e he' he hke
        rw [← hee, hce]
        simpa using hct
      · intro hts
        refine List.mem_map.mpr ⟨e.2, ?_, (hwf e he).symm⟩
        refine List.mem_filter.mpr ⟨?_, by simpa using hts⟩
        exact (mem_list_checkpoints _ _).mpr (List.mem_map.mpr ⟨e, he, rfl⟩)
    by_cases h : T.timestamp < e.2.timestamp
    · simp [hiff.mpr h, not_le.mpr h]
    · have hnm : ¬ (e.1 ∈ ((list_checkpoints σ.checkpoints).filter
          (fun c => decide (T.timestamp < c.timestamp))).map
          (fun c => toString c.id)) := fun hm => h (hiff.mp hm)
      simp [hnm, not_lt.mp h]
  have hTmem : (toString checkpoint_id, T) ∈ σ.checkpoints :=
    getVal_mem _ _ _ hload
  rw [hst, hdel]
  refine ⟨rfl, rfl, ?_⟩
  exact List.mem_filter.mpr ⟨hTmem, by simp⟩

/-- Witness for C2: a two-manifest store where id 2 is strictly later than
the target id 1; after the restore only the target's manifest remains and
the blob directory is untouched. -/
theorem c2_restore_prunes_descendants_witness :
    load_checkpoint
        [("1", ⟨1, "", 5, [], [], none⟩), ("2", ⟨2, "", 9, [], [], none⟩)] 1 =
      some ⟨1, "", 5, [], [], none⟩ ∧
    (RestoreService.restore_checkpoint
        ⟨[("1", ⟨1, "", 5, [], [], none⟩), ("2", ⟨2, "", 9, [], [], none⟩)],
         [("h", ReadResult.ok "x")]⟩
        [] (fun _ => false) 1).storage.checkpoints =
      [("1", ⟨1, "", 5, [], [], none⟩)] ∧
    (RestoreService.restore_checkpoint
        ⟨[("1", ⟨1, "", 5, [], [], none⟩), ("2", ⟨2, "", 9, [], [], none⟩)],
         [("h", ReadResult.ok "x")]⟩
        [] (fun _ => false) 1).storage.files = [("h", ReadResult.ok "x")] := by
  have h := c2_restore_prunes_descendants
    ⟨[("1", ⟨1, "", 5, [], [], none⟩), ("2", ⟨2, "", 9, [], [], none⟩)],
     [("h", ReadResult.ok "x")]⟩
    [] (fun _ => false) 1 ⟨1, "", 5, [], [], none⟩ (by decide) (by decide)
    (by decide)
  exact ⟨by decide, by rw [h.1]; decide, h.2.1⟩

/-! ### Facts about the comparison loops -/

theorem keyUnion_mem (k1 k2 : List String) (q : String) :
    q ∈ ComparisonService.keyUnion k1 k2 ↔ q ∈ k1 ∨ q ∈ k2 := by
  unfold ComparisonService.keyUnion
  constructor
  · intro h
    rcases List.mem_append.mp h with h | h
    · exact Or.inl h
    · exact Or.inr (List.mem_filter.mp h).1
  · intro h
    rcases h with h | h
    · exact List.mem_append_left _ h
    · by_cases h1 : q ∈ k1
      · exact List.mem_append_left _ h1
      · exact List.mem_append_right _
          (List.mem_filter.mpr ⟨h, by simpa using h1⟩)

theorem load_opt_ok (fs : FileStore) (h? : Option String)
    (hfs : ∀ e ∈ fs, e.2 ≠ ReadResult.ioError) :
    ∃ o, load_opt fs h? = Except.ok o := by
  cases h? with
  | none => exact ⟨none, rfl⟩
  | some h =>
    simp only [load_opt, load_file_snapshot]
    cases hg : getVal h fs with
    | none => exact ⟨none, rfl⟩
    | some r =>
      cases r with
      | ok s => exact ⟨some s, rfl⟩
      | ioError =>
        exact absurd rfl (hfs (h, ReadResult.ioError) (getVal_mem _ _ _ hg))

theorem compare_files_raw_ok_elim (fs : FileStore) (h1? h2? : Option String)
    (pr : Option String × Option String)
    (h : compare_files_raw fs h1? h2? = Except.ok pr) :
    load_opt fs h1? = Except.ok pr.1 ∧ load_opt fs h2? = Except.ok pr.2 := by
  unfold compare_files_raw at h
  cases hl1 : load_opt fs h1? with
  | error e => rw [hl1] at h; cases h
  | ok o =>
    rw [hl1] at h
    cases hl2 : load_opt fs h2? with
    | error e => rw [hl2] at h; cases h
    | ok n =>
      rw [hl2] at h
      cases h
      exact ⟨rfl, rfl⟩

theorem compare_loop_ok_intro (fs : FileStore) (s1 s2 : List (String × String))
    (use_rich : Bool) (ps : List String)
    (h : ∀ p ∈ ps, ∃ pr,
      compare_files_raw fs (getVal p s1) (getVal p s2) = Except.ok pr) :
    ∃ l, ComparisonService.compare_loop fs s1 s2 use_rich ps = Except.ok l := by
  induction ps with
  | nil => exact ⟨[], rfl⟩
  | cons p ps ih =>
    rcases h p (List.mem_cons_self _ _) with ⟨pr, hpr⟩
    rcases ih (fun q hq => h q (List.mem_cons_of_mem _ hq)) with ⟨l, hl⟩
    cases hcc : ComparisonService.compare_content p pr.1 pr.2 use_rich with
    | none =>
      refine ⟨l, ?_⟩
      simp only [ComparisonService.compare_loop,
        ComparisonService.compare_files, hpr, hl, hcc]
    | some ch =>
      refine ⟨ch :: l, ?_⟩
      simp only [ComparisonService.compare_loop,
        ComparisonService.compare_files, hpr, hl, hcc]

theorem compare_loop_ok_elim (fs : FileStore) (s1 s2 : List (String × String))
    (use_rich : Bool) (ps : List String) (l : List CodeChange)
    (hloop : ComparisonService.compare_loop fs s1 s2 use_rich ps =
      Except.ok l) :
    ∀ p ∈ ps, ∃ pr,
      compare_files_raw fs (getVal p s1) (getVal p s2) = Except.ok pr := by
  induction ps generalizing l with
  | nil =>
    intro p hp
    simp at hp
  | cons q ps ih =>
    intro p hp
    rcases hr : compare_files_raw fs (getVal q s1) (getVal q s2) with e | pr
    · simp only [ComparisonService.compare_loop, ComparisonService.compare_files,
        hr] at hloop
      exact Except.noConfusion hloop
    · rcases hl' : ComparisonService.compare_loop fs s1 s2 use_rich ps
        with e | l'
      · cases hcc : ComparisonService.compare_content q pr.1 pr.2 use_rich <;>
          · simp only [ComparisonService.compare_loop,
              ComparisonService.compare_files, hr, hl', hcc] at hloop
            exact Except.noConfusion hloop
      · rcases List.mem_cons.mp hp with hp | hp
        · subst hp
          exact ⟨pr, hr⟩
        · exact ih l' hl' p hp

theorem compare_loop_mem_intro (fs : FileStore) (s1 s2 : List (String × String))
    (use_rich : Bool) (ps : List String) (l : List CodeChange)
    (ch : CodeChange)
    (hloop : ComparisonService.compare_loop fs s1 s2 use_rich ps =
      Except.ok l) :
    ∀ p ∈ ps, ComparisonService.compare_files fs p (getVal p s1) (getVal p s2)
      use_rich = Except.ok (some ch) → ch ∈ l := by
  induction ps generalizing l with
  | nil =>
    intro p hp
    simp at hp
  | cons q ps ih =>
    intro p hp hcf
    rcases hq : ComparisonService.compare_files fs q (getVal q s1)
      (getVal q s2) use_rich with e | c
    · simp only [ComparisonService.compare_loop, hq] at hloop
      exact Except.noConfusion hloop
    · rcases hl' : ComparisonService.compare_loop fs s1 s2 use_rich ps
        with e | l'
      · cases c <;>
          · simp only [ComparisonService.compare_loop, hq, hl'] at hloop
            exact Except.noConfusion hloop
      · cases c with
        | none =>
          simp only [ComparisonService.compare_loop, hq, hl'] at hloop
          have hll : l' = l := Except.ok.inj hloop
          rcases List.mem_cons.mp hp with hp | hp
          · subst hp
            rw [hcf] at hq
            exact absurd (Except.ok.inj hq) (by simp)
          · rw [← hll]
            exact ih l' hl' p hp hcf
        | some ch' =>
          simp only [ComparisonService.compare_loop, hq, hl'] at hloop
          have hll : ch' :: l' = l := Except.ok.inj hloop
          rcases List.mem_cons.mp hp with hp | hp
          · subst hp
            rw [hcf] at hq
            have hcc : some ch = some ch' := Except.ok.inj hq
            rw [← hll, ← Option.some.inj hcc]
            exact List.mem_cons_self _ _
          · rw [← hll]
            exact List.mem_cons_of_mem _ (ih l' hl' p hp hcf)

theorem compare_loop_mem_elim (fs : FileStore) (s1 s2 : List (String × String))
    (use_rich : Bool) (ps : List String) (l : List CodeChange)
    (ch : CodeChange)
    (hloop : ComparisonService.compare_loop fs s1 s2 use_rich ps =
      Except.ok l) (hch : ch ∈ l) :
    ∃ p ∈ ps, ComparisonService.compare_files fs p (getVal p s1) (getVal p s2)
      use_rich = Except.ok (some ch) := by
  induction ps generalizing l with
  | nil =>
    have : l = [] := by
      simpa [ComparisonService.compare_loop] using hloop.symm
    rw [this] at hch
    simp at hch
  | cons q ps ih =>
    rcases hq : ComparisonService.compare_files fs q (getVal q s1)
      (getVal q s2) use_rich with e | c
    · simp only [ComparisonService.compare_loop, hq] at hloop
      exact Except.noConfusion hloop
    · rcases hl' : ComparisonService.compare_loop fs s1 s2 use_rich ps
        with e | l'
      · cases c <;>
          · simp only [ComparisonService.compare_loop, hq, hl'] at hloop
            exact Except.noConfusion hloop
      · cases c with
        | none =>
          simp only [ComparisonService.compare_loop, hq, hl'] at hloop
          have hll : l' = l := Except.ok.inj hloop
          rcases ih l' hl' (hll ▸ hch) with ⟨p, hp, hcf⟩
          exact ⟨p, List.mem_cons_of_mem _ hp, hcf⟩
        | some ch' =>
          simp only [ComparisonService.compare_loop, hq, hl'] at hloop
          have hll : ch' :: l' = l := Except.ok.inj hloop
          rw [← hll] at hch
          rcases List.mem_cons.mp hch with hch | hch
          · subst hch
            exact ⟨q, List.mem_cons_self _ _, hq⟩
          · rcases ih l' hl' hch with ⟨p, hp, hcf⟩
            exact ⟨p, List.mem_cons_of_mem _ hp, hcf⟩

theorem cwc_loop_ok_intro (fs : FileStore) (live : List (String × ReadResult))
    (snaps : List (String × String)) (curKeys : List String) (use_rich : Bool)
    (ps : List String)
    (h : ∀ p ∈ ps, ∃ o, load_opt fs (getVal p snaps) = Except.ok o) :
    ∃ l, ComparisonService.cwc_loop fs live snaps curKeys use_rich ps =
      Except.ok l := by
  induction ps with
  | nil => exact ⟨[], rfl⟩
  | cons p ps ih =>
    rcases h p (List.mem_cons_self _ _) with ⟨o, ho⟩
    rcases ih (fun q hq => h q (List.mem_cons_of_mem _ hq)) with ⟨l, hl⟩
    cases hcc : ComparisonService.compare_content p o
        (if p ∈ curKeys then read_file_content live p else none) use_rich with
    | none =>
      refine ⟨l, ?_⟩
      simp only [ComparisonService.cwc_loop, ho, hl, hcc]
    | some ch =>
      refine ⟨ch :: l, ?_⟩
      simp only [ComparisonService.cwc_loop, ho, hl, hcc]

theorem cwc_loop_mem_intro (fs : FileStore) (live : List (String × ReadResult))
    (snaps : List (String × String)) (curKeys : List String) (use_rich : Bool)
    (ps : List String) (l : List CodeChange) (ch : CodeChange)
    (hloop : ComparisonService.cwc_loop fs live snaps curKeys use_rich ps =
      Except.ok l) :
    ∀ p ∈ ps, ∀ co, load_opt fs (getVal p snaps) = Except.ok co →
      ComparisonService.compare_content p co
        (if p ∈ curKeys then read_file_content live p else none) use_rich =
        some ch → ch ∈ l := by
  induction ps generalizing l with
  | nil =>
    intro p hp
    simp at hp
  | cons q ps ih =>
    intro p hp co hco hch
    rcases hq : load_opt fs (getVal q snaps) with e | cq
    · simp only [ComparisonService.cwc_loop, hq] at hloop
      exact Except.noConfusion hloop
    · rcases hl' : ComparisonService.cwc_loop fs live snaps curKeys use_rich ps
        with e | l'
      · simp only [ComparisonService.cwc_loop, hq, hl'] at hloop
        exact Except.noConfusion hloop
      · cases hcc : ComparisonService.compare_content q cq
            (if q ∈ curKeys then read_file_content live q else none)
            use_rich with
        | none =>
          simp only [ComparisonService.cwc_loop, hq, hl', hcc] at hloop
          have hll : l' = l := Except.ok.inj hloop
          rcases List.mem_cons.mp hp with hp | hp
          · subst hp
            rw [hco] at hq
            have hcq : cq = co := (Except.ok.inj hq).symm
            rw [hcq, hch] at hcc
            exact absurd hcc (by simp)
          · rw [← hll]
            exact ih l' hl' p hp co hco hch
        | some ch' =>
          simp only [ComparisonService.cwc_loop, hq, hl', hcc] at hloop
          have hll : ch' :: l' = l := Except.ok.inj hloop
          rcases List.mem_cons.mp hp with hp | hp
          · subst hp
            rw [hco] at hq
            have hcq : cq = co := (Except.ok.inj hq).symm
            rw [hcq, hch] at hcc
            rw [← hll, ← Option.some.inj hcc]
            exact List.mem_cons_self _ _
          · rw [← hll]
            exact List.mem_cons_of_mem _ (ih l' hl' p hp co hco hch)

/-- C7 amended.  `list_checkpoints` loads every `*.json` manifest
(whatever its stem) and sorts them ascending by timestamp with a stable
sort: the result is a permutation of the loaded manifests, is sorted by
timestamp alone, and every equal-timestamp class appears in directory
enumeration order (no id tiebreaker). -/
theorem c7_list_checkpoints_stable_sort (d : CheckpointDir) :
    (list_checkpoints d).Perm (d.map Prod.snd) ∧
    (list_checkpoints d).Sorted (fun a b => a.timestamp ≤ b.timestamp) ∧
    ∀ t : Int, (list_checkpoints d).filter (fun c => c.timestamp = t) =
      (d.map Prod.snd).filter (fun c => c.timestamp = t) := by
  haveI htot : IsTotal Checkpoint (fun a b => a.timestamp ≤ b.timestamp) :=
    ⟨fun a b => le_total _ _⟩
  haveI htr : IsTrans Checkpoint (fun a b => a.timestamp ≤ b.timestamp) :=
    ⟨fun _ _ _ hab hbc => le_trans hab hbc⟩
  refine ⟨List.perm_insertionSort _ _, List.sorted_insertionSort _ _, ?_⟩
  intro t
  exact filter_insertionSort_ts t _

/-! ### C8: change symmetry of `compare_checkpoints` -/

theorem compare_files_raw_intro (fs : FileStore) (h1? h2? : Option String)
    (o n : Option String) (h1 : load_opt fs h1? = Except.ok o)
    (h2 : load_opt fs h2? = Except.ok n) :
    compare_files_raw fs h1? h2? = Except.ok (o, n) := by
  simp only [compare_files_raw, h1, h2]

theorem compare_files_ok_some_elim (fs : FileStore) (p : String)
    (h1? h2? : Option String) (use_rich : Bool) (ch : CodeChange)
    (h : ComparisonService.compare_files fs p h1? h2? use_rich =
      Except.ok (some ch)) :
    ∃ pr, compare_files_raw fs h1? h2? = Except.ok pr ∧
      ComparisonService.compare_content p pr.1 pr.2 use_rich = some ch := by
  unfold ComparisonService.compare_files at h
  cases hr : compare_files_raw fs h1? h2? with
  | error e =>
    rw [hr] at h
    exact Except.noConfusion h
  | ok pr =>
    rw [hr] at h
    exact ⟨pr, rfl, Except.ok.inj h⟩

theorem compare_content_elim (p : String) (o? n? : Option String)
    (use_rich : Bool) (ch : CodeChange)
    (h : ComparisonService.compare_content p o? n? use_rich = some ch) :
    (ch.change_type = ChangeType.added →
      o? = none ∧ ∃ n, n? = some n ∧
        ch = ⟨p, ChangeType.added, none, some n,
          ComparisonService.make_diff use_rich "" n⟩) ∧
    (ch.change_type = ChangeType.modified →
      ∃ o n, o? = some o ∧ n? = some n ∧ o ≠ n ∧
        ch = ⟨p, ChangeType.modified, some o, some n,
          ComparisonService.make_diff use_rich o n⟩) ∧
    (ch.change_type = ChangeType.deleted →
      n? = none ∧ ∃ o, o? = some o ∧
        ch = ⟨p, ChangeType.deleted, some o, none,
          ComparisonService.make_diff use_rich o ""⟩) := by
  cases o? with
  | none =>
    cases n? with
    | none => exact absurd h (by simp [ComparisonService.compare_content])
    | some n =>
      simp only [ComparisonService.compare_content] at h
      have e := Option.some.inj h
      subst e
      exact ⟨fun _ => ⟨rfl, n, rfl, rfl⟩,
        fun hc => ChangeType.noConfusion hc,
        fun hc => ChangeType.noConfusion hc⟩
  | some o =>
    cases n? with
    | none =>
      simp only [ComparisonService.compare_content] at h
      have e := Option.some.inj h
      subst e
      exact ⟨fun hc => ChangeType.noConfusion hc,
        fun hc => ChangeType.noConfusion hc,
        fun _ => ⟨rfl, o, rfl, rfl⟩⟩
    | some n =>
      by_cases hon : o = n
      · exact absurd h (by simp [ComparisonService.compare_content, hon])
      · simp only [ComparisonService.compare_content] at h
        rw [if_neg hon] at h
        have e := Option.some.inj h
        subst e
        exact ⟨fun hc => ChangeType.noConfusion hc,
          fun _ => ⟨o, n, rfl, rfl, hon, rfl⟩,
          fun hc => ChangeType.noConfusion hc⟩

/-- C8.  If `compare_checkpoints(a, b)` succeeds and reports a change at
some path, then `compare_checkpoints(b, a)` also succeeds and reports the
symmetric change at the same path: an **added** entry with new content `c`
becomes a **deleted** entry with old content `c`, and a **modified** entry
reappears as **modified** with old and new content swapped. -/
theorem c8_change_symmetry (σ : Storage) (a b : Int) (use_rich : Bool)
    (l : List CodeChange) (ch : CodeChange)
    (hab : ComparisonService.compare_checkpoints σ a b use_rich = Except.ok l)
    (hch : ch ∈ l) :
    ∃ lr, ComparisonService.compare_checkpoints σ b a use_rich =
        Except.ok lr ∧
      ((ch.change_type = ChangeType.added → ∃ c, ch.new_content = some c ∧
        (⟨ch.file_path, ChangeType.deleted, some c, none,
          ComparisonService.make_diff use_rich c ""⟩ : CodeChange) ∈ lr) ∧
       (ch.change_type = ChangeType.modified →
        ∃ o n, ch.old_content = some o ∧ ch.new_content = some n ∧
        (⟨ch.file_path, ChangeType.modified, some n, some o,
          ComparisonService.make_diff use_rich n o⟩ : CodeChange) ∈ lr)) := by
  cases hc1 : load_checkpoint σ.checkpoints a with
  | none =>
    cases hc2 : load_checkpoint σ.checkpoints b with
    | none =>
      simp only [ComparisonService.compare_checkpoints, hc1, hc2] at hab
      exact Except.noConfusion hab
    | some cp2 =>
      simp only [ComparisonService.compare_checkpoints, hc1, hc2] at hab
      exact Except.noConfusion hab
  | some cp1 =>
    cases hc2 : load_checkpoint σ.checkpoints b with
    | none =>
      simp only [ComparisonService.compare_checkpoints, hc1, hc2] at hab
      exact Except.noConfusion hab
    | some cp2 =>
      simp only [ComparisonService.compare_checkpoints, hc1, hc2] at hab
      have hrevok : ∃ lr, ComparisonService.compare_loop σ.files
          cp2.file_snapshots cp1.file_snapshots use_rich
          (ComparisonService.keyUnion (cp2.file_snapshots.map Prod.fst)
            (cp1.file_snapshots.map Prod.fst)) = Except.ok lr := by
        apply compare_loop_ok_intro
        intro q hq
        have hq' : q ∈ ComparisonService.keyUnion
            (cp1.file_snapshots.map Prod.fst)
            (cp2.file_snapshots.map Prod.fst) :=
          (keyUnion_mem _ _ q).mpr ((keyUnion_mem _ _ q).mp hq).symm
        rcases compare_loop_ok_elim _ _ _ _ _ _ hab q hq' with ⟨pr, hpr⟩
        rcases compare_files_raw_ok_elim _ _ _ _ hpr with ⟨hq1, hq2⟩
        exact ⟨(pr.2, pr.1), compare_files_raw_intro _ _ _ _ _ hq2 hq1⟩
      rcases hrevok with ⟨lr, hlr⟩
      refine ⟨lr, ?_, ?_, ?_⟩
      · simp only [ComparisonService.compare_checkpoints, hc2, hc1]
        exact hlr
      · intro hty
        rcases compare_loop_mem_elim _ _ _ _ _ _ _ hab hch with ⟨p, hp, hcf⟩
        rcases compare_files_ok_some_elim _ _ _ _ _ _ hcf with ⟨pr, hraw, hcc⟩
        rcases compare_files_raw_ok_elim _ _ _ _ hraw with ⟨hq1, hq2⟩
        rcases (compare_content_elim _ _ _ _ _ hcc).1 hty with ⟨ho, n, hn, hche⟩
        subst hche
        refine ⟨n, rfl, ?_⟩
        have hraw' : compare_files_raw σ.files (getVal p cp2.file_snapshots)
            (getVal p cp1.file_snapshots) = Except.ok (some n, none) := by
          apply compare_files_raw_intro
          · rw [← hn]; exact hq2
          · rw [← ho]; exact hq1
        have hcf' : ComparisonService.compare_files σ.files p
            (getVal p cp2.file_snapshots) (getVal p cp1.file_snapshots)
            use_rich = Except.ok (some ⟨p, ChangeType.deleted, some n, none,
              ComparisonService.make_diff use_rich n ""⟩) := by
          unfold ComparisonService.compare_files
          rw [hraw']
          rfl
        have hpmem : p ∈ ComparisonService.keyUnion
            (cp2.file_snapshots.map Prod.fst)
            (cp1.file_snapshots.map Prod.fst) :=
          (keyUnion_mem _ _ p).mpr ((keyUnion_mem _ _ p).mp hp).symm
        exact compare_loop_mem_intro _ _ _ _ _ _ _ hlr p hpmem hcf'
      · intro hty
        rcases compare_loop_mem_elim _ _ _ _ _ _ _ hab hch with ⟨p, hp, hcf⟩
        rcases compare_files_ok_some_elim _ _ _ _ _ _ hcf with ⟨pr, hraw, hcc⟩
        rcases compare_files_raw_ok_elim _ _ _ _ hraw with ⟨hq1, hq2⟩
        rcases (compare_content_elim _ _ _ _ _ hcc).2.1 hty with
          ⟨o, n, ho, hn, hon, hche⟩
        subst hche
        refine ⟨o, n, rfl, rfl, ?_⟩
        have hraw' : compare_files_raw σ.files (getVal p cp2.file_snapshots)
            (getVal p cp1.file_snapshots) = Except.ok (some n, some o) := by
          apply compare_files_raw_intro
          · rw [← hn]; exact hq2
          · rw [← ho]; exact hq1
        have hcf' : ComparisonService.compare_files σ.files p
            (getVal p cp2.file_snapshots) (getVal p cp1.file_snapshots)
            use_rich = Except.ok (some ⟨p, ChangeType.modified, some n, some o,
              ComparisonService.make_diff use_rich n o⟩) := by
          unfold ComparisonService.compare_files
          rw [hraw']
          simp only [ComparisonService.compare_content]
          rw [if_neg (fun hno => hon hno.symm)]
        have hpmem : p ∈ ComparisonService.keyUnion
            (cp2.file_snapshots.map Prod.fst)
            (cp1.file_snapshots.map Prod.fst) :=
          (keyUnion_mem _ _ p).mpr ((keyUnion_mem _ _ p).mp hp).symm
        exact compare_loop_mem_intro _ _ _ _ _ _ _ hlr p hpmem hcf'

/-- C8 witness: on a concrete store, checkpoint 2 adds path `a` with
content `z` relative to checkpoint 1, and the reversed comparison reports
`a` as deleted with old content `z`. -/
theorem c8_change_symmetry_witness :
    ∃ lr, ComparisonService.compare_checkpoints
        ⟨[("1", ⟨1, "", 5, [], [("m", "h1")], none⟩),
          ("2", ⟨2, "", 6, [], [("m", "h2"), ("a", "h3")], none⟩)],
         [("h1", ReadResult.ok "x"), ("h2", ReadResult.ok "y"),
          ("h3", ReadResult.ok "z")]⟩ 2 1 false = Except.ok lr ∧
      (⟨"a", ChangeType.deleted, some "z", none,
        ComparisonService.make_diff false "z" ""⟩ : CodeChange) ∈ lr := by
  rcases c8_change_symmetry
      ⟨[("1", ⟨1, "", 5, [], [("m", "h1")], none⟩),
        ("2", ⟨2, "", 6, [], [("m", "h2"), ("a", "h3")], none⟩)],
       [("h1", ReadResult.ok "x"), ("h2", ReadResult.ok "y"),
        ("h3", ReadResult.ok "z")]⟩ 1 2 false
      ((ComparisonService.compare_checkpoints
        ⟨[("1", ⟨1, "", 5, [], [("m", "h1")], none⟩),
          ("2", ⟨2, "", 6, [], [("m", "h2"), ("a", "h3")], none⟩)],
         [("h1", ReadResult.ok "x"), ("h2", ReadResult.ok "y"),
          ("h3", ReadResult.ok "z")]⟩ 1 2 false).toOption.getD [])
      ⟨"a", ChangeType.added, none, some "z",
        ComparisonService.make_diff false "" "z"⟩
      rfl (by decide) with ⟨lr, hok, hadd, _⟩
  rcases hadd rfl with ⟨c, hc, hmem⟩
  have hcz : c = "z" := (Option.some.inj hc).symm
  subst hcz
  exact ⟨lr, hok, hmem⟩

/-! ### C9: per-file failures during comparison -/

theorem compare_loop_err (fs : FileStore) (s1 s2 : List (String × String))
    (use_rich : Bool) (ps : List String) (p : String) (e : PyErr)
    (herr : compare_files_raw fs (getVal p s1) (getVal p s2) =
      Except.error e) :
    p ∈ ps → ComparisonService.compare_loop fs s1 s2 use_rich ps =
      Except.error PyErr.comparisonError := by
  induction ps with
  | nil =>
    intro hp
    simp at hp
  | cons q ps ih =>
    intro hp
    rcases hq : compare_files_raw fs (getVal q s1) (getVal q s2) with e0 | prq
    · simp only [ComparisonService.compare_loop,
        ComparisonService.compare_files, hq]
    · rcases List.mem_cons.mp hp with hpq | hp'
      · subst hpq
        rw [herr] at hq
        exact Except.noConfusion hq
      · simp only [ComparisonService.compare_loop,
          ComparisonService.compare_files, hq, ih hp']

theorem legacy_loop_mem_intro (fs : FileStore) (s1 s2 : List (String × String))
    (use_rich : Bool) (ps : List String) (p : String)
    (pr : Option String × Option String) (ch : CodeChange)
    (hraw : compare_files_raw fs (getVal p s1) (getVal p s2) = Except.ok pr)
    (hcc : CheckpointComparator.compare_content p pr.1 pr.2 use_rich =
      some ch) :
    p ∈ ps → ch ∈ CheckpointComparator.compare_loop fs s1 s2 use_rich ps := by
  induction ps with
  | nil =>
    intro hp
    simp at hp
  | cons q ps ih =>
    intro hp
    rcases List.mem_cons.mp hp with hpq | hp'
    · subst hpq
      simp only [CheckpointComparator.compare_loop, hraw, hcc]
      exact List.mem_cons_self _ _
    · rcases hq : compare_files_raw fs (getVal q s1) (getVal q s2)
        with e0 | prq
      · simp only [CheckpointComparator.compare_loop, hq]
        exact ih hp'
      · rcases hcq : CheckpointComparator.compare_content q prq.1 prq.2
          use_rich with _ | ch'
        · simp only [CheckpointComparator.compare_loop, hq, hcq]
          exact ih hp'
        · simp only [CheckpointComparator.compare_loop, hq, hcq]
          exact List.mem_cons_of_mem _ (ih hp')

/-- C9 amended.  Per-file failure handling differs between the layers.
(i) In `ComparisonService.compare_checkpoints` a failing snapshot load at
any compared path aborts the whole comparison with `ComparisonError`.
(ii) In the legacy `CheckpointComparator.compare_checkpoints` every path
is compared inside its own handler, so any path whose loads succeed is
still reported even when other paths fail.  (iii) In
`ComparisonService.compare_with_current` a live-tree read failure is
absorbed: when all snapshot loads succeed the comparison returns normally
and an unreadable live file with a stored snapshot is encoded as a
deleted entry. -/
theorem c9_per_file_failures (σ : Storage) (a b : Int) (use_rich : Bool)
    (cp1 cp2 : Checkpoint)
    (h1 : load_checkpoint σ.checkpoints a = some cp1)
    (h2 : load_checkpoint σ.checkpoints b = some cp2) :
    (∀ q ∈ ComparisonService.keyUnion (cp1.file_snapshots.map Prod.fst)
        (cp2.file_snapshots.map Prod.fst), ∀ e : PyErr,
      compare_files_raw σ.files (getVal q cp1.file_snapshots)
        (getVal q cp2.file_snapshots) = Except.error e →
      ComparisonService.compare_checkpoints σ a b use_rich =
        Except.error PyErr.comparisonError) ∧
    (∀ q ∈ ComparisonService.keyUnion (cp1.file_snapshots.map Prod.fst)
        (cp2.file_snapshots.map Prod.fst),
      ∀ (pr : Option String × Option String) (ch : CodeChange),
      compare_files_raw σ.files (getVal q cp1.file_snapshots)
        (getVal q cp2.file_snapshots) = Except.ok pr →
      CheckpointComparator.compare_content q pr.1 pr.2 use_rich = some ch →
      ch ∈ CheckpointComparator.compare_checkpoints σ a b use_rich) ∧
    (∀ (live : List (String × ReadResult)) (ign : String → Bool),
      (∀ q ∈ ComparisonService.keyUnion (cp1.file_snapshots.map Prod.fst)
          (get_project_files live ign),
        ∃ o, load_opt σ.files (getVal q cp1.file_snapshots) = Except.ok o) →
      ∃ lcur, ComparisonService.compare_with_current σ live ign a use_rich =
          Except.ok lcur ∧
        ∀ (p h c : String), getVal p cp1.file_snapshots = some h →
          getVal h σ.files = some (ReadResult.ok c) →
          getVal p live = some ReadResult.ioError →
          (⟨p, ChangeType.deleted, some c, none,
            ComparisonService.make_diff use_rich c ""⟩ : CodeChange) ∈ lcur) := by
  refine ⟨?_, ?_, ?_⟩
  · intro q hq e herr
    simp only [ComparisonService.compare_checkpoints, h1, h2]
    exact compare_loop_err _ _ _ _ _ q e herr hq
  · intro q hq pr ch hraw hcc
    simp only [CheckpointComparator.compare_checkpoints, h1, h2]
    exact legacy_loop_mem_intro _ _ _ _ _ q pr ch hraw hcc hq
  · intro live ign hok
    rcases cwc_loop_ok_intro σ.files live cp1.file_snapshots
        (get_project_files live ign) use_rich
        (ComparisonService.keyUnion (cp1.file_snapshots.map Prod.fst)
          (get_project_files live ign)) hok with ⟨lcur, hlcur⟩
    refine ⟨lcur, ?_, ?_⟩
    · simp only [ComparisonService.compare_with_current, h1]
      exact hlcur
    · intro p h c hgs hgf hlive
      have hload : load_opt σ.files (getVal p cp1.file_snapshots) =
          Except.ok (some c) := by
        rw [hgs]
        simp only [load_opt, load_file_snapshot, hgf]
      have hrfc : read_file_content live p = none := by
        simp [read_file_content, hlive]
      have hcur : (if p ∈ get_project_files live ign then
          read_file_content live p else none) = none := by
        rw [hrfc]
        exact ite_self none
      have hccc : ComparisonService.compare_content p (some c)
          (if p ∈ get_project_files live ign then read_file_content live p
            else none) use_rich = some ⟨p, ChangeType.deleted, some c, none,
          ComparisonService.make_diff use_rich c ""⟩ := by
        rw [hcur]
        rfl
      have hpmem : p ∈ ComparisonService.keyUnion
          (cp1.file_snapshots.map Prod.fst) (get_project_files live ign) :=
        (keyUnion_mem _ _ p).mpr
          (Or.inl (List.mem_map_of_mem Prod.fst (getVal_mem _ _ _ hgs)))
      exact cwc_loop_mem_intro _ _ _ _ _ _ _ _ hlcur p hpmem (some c)
        hload hccc

/-- C9 counterexample: with one checkpoint referencing a blob whose file
read raises, `ComparisonService.compare_checkpoints` and
`compare_with_current` raise `ComparisonError` for the whole comparison
instead of absorbing the per-file failure; only the legacy
`CheckpointComparator` absorbs it (silently skipping the path). -/
theorem c9_counterexample :
    ComparisonService.compare_checkpoints
        ⟨[("1", ⟨1, "", 5, [], [("f", "hbad")], none⟩),
          ("2", ⟨2, "", 6, [], [], none⟩)],
         [("hbad", ReadResult.ioError)]⟩ 1 2 false =
      Except.error PyErr.comparisonError ∧
    ComparisonService.compare_with_current
        ⟨[("1", ⟨1, "", 5, [], [("f", "hbad")], none⟩),
          ("2", ⟨2, "", 6, [], [], none⟩)],
         [("hbad", ReadResult.ioError)]⟩ [] (fun _ => false) 1 false =
      Except.error PyErr.comparisonError ∧
    CheckpointComparator.compare_checkpoints
        ⟨[("1", ⟨1, "", 5, [], [("f", "hbad")], none⟩),
          ("2", ⟨2, "", 6, [], [], none⟩)],
         [("hbad", ReadResult.ioError)]⟩ 1 2 false = [] := by
  exact ⟨rfl, rfl, rfl⟩

/-- C9 witness: on a concrete store where checkpoint 2 references one
readable and one raising blob, the service comparison aborts, the legacy
comparator still reports the readable path's modification, and an
unreadable live file is absorbed as a deletion by
`compare_with_current`. -/
theorem c9_per_file_failures_witness :
    ComparisonService.compare_checkpoints
        ⟨[("1", ⟨1, "", 5, [], [("g", "hg")], none⟩),
          ("2", ⟨2, "", 6, [], [("g", "hg2"), ("f", "hbad")], none⟩)],
         [("hg", ReadResult.ok "u"), ("hg2", ReadResult.ok "v"),
          ("hbad", ReadResult.ioError)]⟩ 1 2 false =
      Except.error PyErr.comparisonError ∧
    (⟨"g", ChangeType.modified, some "u", some "v",
      DiffGenerator.generate_diff "u" "v"⟩ : CodeChange) ∈
      CheckpointComparator.compare_checkpoints
        ⟨[("1", ⟨1, "", 5, [], [("g", "hg")], none⟩),
          ("2", ⟨2, "", 6, [], [("g", "hg2"), ("f", "hbad")], none⟩)],
         [("hg", ReadResult.ok "u"), ("hg2", ReadResult.ok "v"),
          ("hbad", ReadResult.ioError)]⟩ 1 2 false ∧
    ∃ lcur, ComparisonService.compare_with_current
        ⟨[("1", ⟨1, "", 5, [], [("g", "hg")], none⟩),
          ("2", ⟨2, "", 6, [], [("g", "hg2"), ("f", "hbad")], none⟩)],
         [("hg", ReadResult.ok "u"), ("hg2", ReadResult.ok "v"),
          ("hbad", ReadResult.ioError)]⟩ [("g", ReadResult.ioError)]
        (fun _ => false) 1 false = Except.ok lcur ∧
      (⟨"g", ChangeType.deleted, some "u", none,
        ComparisonService.make_diff false "u" ""⟩ : CodeChange) ∈ lcur := by
  have H := c9_per_file_failures
    ⟨[("1", ⟨1, "", 5, [], [("g", "hg")], none⟩),
      ("2", ⟨2, "", 6, [], [("g", "hg2"), ("f", "hbad")], none⟩)],
     [("hg", ReadResult.ok "u"), ("hg2", ReadResult.ok "v"),
      ("hbad", ReadResult.ioError)]⟩ 1 2 false
    ⟨1, "", 5, [], [("g", "hg")], none⟩
    ⟨2, "", 6, [], [("g", "hg2"), ("f", "hbad")], none⟩ rfl rfl
  refine ⟨H.1 "f" (by decide) PyErr.osError rfl, ?_, ?_⟩
  · exact H.2.1 "g" (by decide) (some "u", some "v")
      ⟨"g", ChangeType.modified, some "u", some "v",
        DiffGenerator.generate_diff "u" "v"⟩ rfl (by decide)
  · rcases H.2.2 [("g", ReadResult.ioError)] (fun _ => false)
        (by
          intro q hq
          have hqe : q = "g" := List.mem_singleton.mp hq
          subst hqe
          exact ⟨some "u", rfl⟩) with ⟨lcur, hok, hmem⟩
    exact ⟨lcur, hok, hmem "g" "hg" "u" rfl rfl rfl⟩

/-! ### C10: the two diff implementations agree, and equal inputs diff
to the empty string.

The heart is `find_longest_match` on equal sequences: the dynamic program
only ever records diagonal candidates (`FlmInv`), and the extension loops
then stretch any diagonal candidate to the full sequence. -/

theorem posFrom_mem (es : List String) : ∀ (j k : Nat) (s : String),
    k ∈ posFrom j es s ↔
      j ≤ k ∧ k < j + es.length ∧ es.getD (k - j) "" = s := by
  induction es with
  | nil =>
    intro j k s
    simp only [posFrom, List.not_mem_nil, List.length_nil, false_iff]
    rintro ⟨h1, h2, _⟩
    omega
  | cons e es ih =>
    intro j k s
    constructor
    · intro hmem
      rcases List.mem_append.mp hmem with hmem | hmem
      · have hes : e = s ∧ k = j := by
          by_cases he : e = s
          · rw [if_pos he] at hmem
            exact ⟨he, List.mem_singleton.mp hmem⟩
          · rw [if_neg he] at hmem
            exact absurd hmem (List.not_mem_nil k)
        rcases hes with ⟨he, hkj⟩
        subst hkj
        refine ⟨Nat.le_refl k, by simp only [List.length_cons]; omega, ?_⟩
        rw [Nat.sub_self]
        simpa using he
      · rcases (ih (j + 1) k s).mp hmem with ⟨h1, h2, h3⟩
        refine ⟨by omega, by simp only [List.length_cons]; omega, ?_⟩
        have hkj : k - j = (k - (j + 1)) + 1 := by omega
        rw [hkj, List.getD_cons_succ]
        exact h3
    · rintro ⟨h1, h2, h3⟩
      by_cases hkj : k = j
      · subst hkj
        rw [Nat.sub_self] at h3
        simp only [List.getD_cons_zero] at h3
        refine List.mem_append.mpr (Or.inl ?_)
        rw [if_pos h3]
        exact List.mem_singleton.mpr rfl
      · refine List.mem_append.mpr (Or.inr ?_)
        apply (ih (j + 1) k s).mpr
        have hkj' : k - j = (k - (j + 1)) + 1 := by omega
        rw [hkj', List.getD_cons_succ] at h3
        simp only [List.length_cons] at h2
        exact ⟨by omega, by omega, h3⟩

theorem posFrom_sorted (es : List String) : ∀ (j : Nat) (s : String),
    List.Sorted (· < ·) (posFrom j es s) := by
  induction es with
  | nil =>
    intro j s
    simp [posFrom]
  | cons e es ih =>
    intro j s
    by_cases he : e = s
    · simp only [posFrom, if_pos he, List.singleton_append]
      refine List.sorted_cons.mpr ⟨?_, ih (j + 1) s⟩
      intro b hb
      have := ((posFrom_mem es (j + 1) b s).mp hb).1
      omega
    · simp only [posFrom, if_neg he, List.nil_append]
      exact ih (j + 1) s

theorem b2jGet_setVal (e : String) (v : List Nat)
    (m : List (String × List Nat)) (s : String) :
    b2jGet (setVal e v m) s = if s = e then v else b2jGet m s := by
  by_cases hse : s = e
  · subst hse
    simp [b2jGet, getVal_setVal_self]
  · simp only [b2jGet, getVal_setVal_ne e s v m hse, if_neg hse]

theorem b2jGet_buildB2jGo (es : List String) :
    ∀ (m : List (String × List Nat)) (j : Nat) (s : String),
      b2jGet (buildB2jGo m j es) s = b2jGet m s ++ posFrom j es s := by
  induction es with
  | nil =>
    intro m j s
    simp [buildB2jGo, posFrom]
  | cons e es ih =>
    intro m j s
    rw [buildB2jGo, ih, b2jGet_setVal]
    by_cases hse : s = e
    · rw [if_pos hse]
      subst hse
      simp only [posFrom, if_pos rfl, List.singleton_append]
      rw [List.append_assoc]
      rfl
    · rw [if_neg hse]
      have hes : ¬ e = s := fun h => hse h.symm
      simp only [posFrom, if_neg hes, List.nil_append]

theorem b2jGet_buildB2j (b : List String) (s : String) :
    b2jGet (buildB2j b) s = posFrom 0 b s := by
  rw [buildB2j, b2jGet_buildB2jGo]
  simp [b2jGet, getVal]

theorem getVal_filter_true {α} (P : String × α → Bool) (s : String)
    (l : List (String × α)) (h : ∀ v, P (s, v) = true) :
    getVal s (l.filter P) = getVal s l := by
  induction l with
  | nil => rfl
  | cons e l ih =>
    by_cases hes : e.1 = s
    · have hPe : P e = true := by
        have he : e = (s, e.2) := by
          rw [← hes]
        rw [he]
        exact h e.2
      simp [List.filter_cons, hPe, getVal, hes, ih]
    · cases hPe : P e with
      | true => simp [List.filter_cons, hPe, getVal, hes, ih]
      | false => simp [List.filter_cons, hPe, getVal, hes, ih]

theorem getVal_filter_false {α} (P : String × α → Bool) (s : String)
    (l : List (String × α)) (h : ∀ v, P (s, v) = false) :
    getVal s (l.filter P) = none := by
  induction l with
  | nil => rfl
  | cons e l ih =>
    by_cases hes : e.1 = s
    · have hPe : P e = false := by
        have he : e = (s, e.2) := by
          rw [← hes]
        rw [he]
        exact h e.2
      simp [List.filter_cons, hPe, getVal, hes, ih]
    · cases hPe : P e with
      | true => simp [List.filter_cons, hPe, getVal, hes, ih]
      | false => simp [List.filter_cons, hPe, getVal, hes, ih]

theorem chainB_cases (b : List String) (s : String) :
    b2jGet (chainB b) s = posFrom 0 b s ∨ b2jGet (chainB b) s = [] := by
  by_cases h200 : 200 ≤ b.length
  · simp only [chainB]
    rw [if_pos h200]
    by_cases hs : s ∈ ((buildB2j b).filter
        (fun e => b.length / 100 + 1 < e.2.length)).map Prod.fst
    · right
      rw [b2jGet, getVal_filter_false _ s (buildB2j b)
        (fun v => by simp [hs])]
      rfl
    · left
      rw [b2jGet, getVal_filter_true _ s (buildB2j b)
        (fun v => by simp [hs])]
      exact b2jGet_buildB2j b s
  · left
    simp only [chainB]
    rw [if_neg h200]
    exact b2jGet_buildB2j b s

theorem flmS_le (a : List String) (b2j : List (String × List Nat)) :
    ∀ i, flmS a b2j i ≤ i := by
  intro i
  induction i with
  | zero => exact Nat.le_refl 0
  | succ i ih =>
    rw [flmS]
    by_cases h : b2jGet b2j (a.getD i "") = []
    · rw [if_pos h]
      omega
    · rw [if_neg h]
      omega

theorem flmS_listed (a : List String) (b2j : List (String × List Nat))
    (i : Nat) (h : b2jGet b2j (a.getD i "") ≠ []) :
    flmS a b2j (i + 1) = flmS a b2j i + 1 := by
  rw [flmS, if_neg h]

theorem flmS_unlisted (a : List String) (b2j : List (String × List Nat))
    (i : Nat) (h : b2jGet b2j (a.getD i "") = []) :
    flmS a b2j (i + 1) = 0 := by
  rw [flmS, if_pos h]

theorem flmInner_inv (a : List String) (b2j : List (String × List Nat))
    (i : Nat) (hi : i < a.length)
    (r0 : Nat → Nat)
    (h3 : ∀ j, r0 j ≤ flmS a b2j i)
    (h4 : ∀ j, r0 j ≤ flmS a b2j (j + 1))
    (h7 : ∀ j, j + 1 = i → flmS a b2j i ≤ r0 j)
    (best0 : Nat)
    (h5 : ∀ j, j < i → flmS a b2j (j + 1) ≤ best0)
    (hSi : flmS a b2j (i + 1) = flmS a b2j i + 1) :
    ∀ (js : List Nat) (bst : Flm) (acc : Nat → Nat),
      List.Sorted (· < ·) js →
      (∀ j ∈ js, j < a.length ∧ flmS a b2j (j + 1) = flmS a b2j j + 1) →
      bst.besti = bst.bestj →
      bst.besti + bst.bestsize ≤ a.length →
      best0 ≤ bst.bestsize →
      (∀ j, acc j ≤ flmS a b2j (i + 1)) →
      (∀ j, acc j ≤ flmS a b2j (j + 1)) →
      (i ∈ js ∨ (flmS a b2j (i + 1) ≤ bst.bestsize ∧
        flmS a b2j (i + 1) ≤ acc i)) →
      FlmInv a b2j (i + 1) (flmInner r0 0 a.length i js (bst, acc)) ∧
        best0 ≤ (flmInner r0 0 a.length i js (bst, acc)).1.bestsize := by
  intro js
  induction js with
  | nil =>
    intro bst acc hsort hmem hd hb hb0 hacc1 hacc2 hdisj
    rcases hdisj with hdisj | ⟨hbS, haS⟩
    · exact absurd hdisj (List.not_mem_nil i)
    · refine ⟨⟨hd, hb, hacc1, hacc2, ?_, ?_⟩, hb0⟩
      · intro j hj
        by_cases hji : j < i
        · exact le_trans (h5 j hji) (le_trans hb0 (le_refl _))
        · have hje : j = i := by omega
          subst hje
          exact hbS
      · intro j hj
        have hje : j = i := by omega
        subst hje
        exact haS
  | cons j rest ih =>
    intro bst acc hsort hmem hd hb hb0 hacc1 hacc2 hdisj
    obtain ⟨hjlen, hSj⟩ := hmem j (List.mem_cons_self _ _)
    have hmem' := fun q hq => hmem q (List.mem_cons_of_mem _ hq)
    obtain ⟨hjlt, hsort'⟩ := List.sorted_cons.mp hsort
    simp only [flmInner]
    rw [if_neg (Nat.not_lt_zero j), if_neg (Nat.not_le.mpr hjlen)]
    rcases Nat.lt_trichotomy j i with hji | hji | hji
    · -- j < i: the candidate is dominated by an already-completed
      -- diagonal run, so the best is not updated.
      have hkj : (if j = 0 then 0 else r0 (j - 1)) + 1 ≤
          flmS a b2j (j + 1) := by
        by_cases hj0 : j = 0
        · rw [if_pos hj0, hSj]
          omega
        · rw [if_neg hj0]
          have h4j := h4 (j - 1)
          have he : j - 1 + 1 = j := by omega
          rw [he] at h4j
          rw [hSj]
          omega
      have hkS : (if j = 0 then 0 else r0 (j - 1)) + 1 ≤
          flmS a b2j (i + 1) := by
        rw [hSi]
        by_cases hj0 : j = 0
        · rw [if_pos hj0]
          omega
        · rw [if_neg hj0]
          have := h3 (j - 1)
          omega
      have hnowin : ¬ bst.bestsize <
          (if j = 0 then 0 else r0 (j - 1)) + 1 := by
        have := h5 j hji
        omega
      rw [if_neg hnowin]
      apply ih _ _ hsort' hmem' hd hb hb0
      · intro j'
        by_cases hj' : j' = j
        · rw [if_pos hj']
          exact hkS
        · rw [if_neg hj']
          exact hacc1 j'
      · intro j'
        by_cases hj' : j' = j
        · rw [if_pos hj']
          subst hj'
          exact hkj
        · rw [if_neg hj']
          exact hacc2 j'
      · rcases hdisj with h0 | ⟨hbS, haS⟩
        · rcases List.mem_cons.mp h0 with h0 | h0
          · omega
          · exact Or.inl h0
        · refine Or.inr ⟨hbS, ?_⟩
          rw [if_neg (by omega : ¬ i = j)]
          exact haS
    · -- j = i: the diagonal candidate, of size exactly `flmS (i+1)`.
      subst hji
      have hkeq : (if j = 0 then 0 else r0 (j - 1)) + 1 =
          flmS a b2j (j + 1) := by
        rw [hSi]
        by_cases hj0 : j = 0
        · rw [if_pos hj0]
          subst hj0
          rfl
        · rw [if_neg hj0]
          have ha' := h3 (j - 1)
          have hb' := h7 (j - 1) (by omega)
          omega
      by_cases hupd : bst.bestsize < (if j = 0 then 0 else r0 (j - 1)) + 1
      · rw [if_pos hupd]
        apply ih _ _ hsort' hmem' rfl
        · dsimp only
          have hkle := flmS_le a b2j (j + 1)
          omega
        · dsimp only
          omega
        · intro j'
          by_cases hj' : j' = j
          · rw [if_pos hj']
            omega
          · rw [if_neg hj']
            exact hacc1 j'
        · intro j'
          by_cases hj' : j' = j
          · rw [if_pos hj']
            subst hj'
            omega
          · rw [if_neg hj']
            exact hacc2 j'
        · refine Or.inr ⟨by dsimp only; omega, ?_⟩
          rw [if_pos rfl]
          omega
      · rw [if_neg hupd]
        apply ih _ _ hsort' hmem' hd hb hb0
        · intro j'
          by_cases hj' : j' = j
          · rw [if_pos hj']
            omega
          · rw [if_neg hj']
            exact hacc1 j'
        · intro j'
          by_cases hj' : j' = j
          · rw [if_pos hj']
            subst hj'
            omega
          · rw [if_neg hj']
            exact hacc2 j'
        · refine Or.inr ⟨by omega, ?_⟩
          rw [if_pos rfl]
          omega
    · -- i < j: the diagonal has already been processed (it precedes `j`
      -- in the ascending list), so the best already dominates.
      have hinotin : i ∉ j :: rest := by
        intro hmem0
        rcases List.mem_cons.mp hmem0 with h0 | h0
        · omega
        · exact absurd (hjlt i h0) (by omega)
      have hdone : flmS a b2j (i + 1) ≤ bst.bestsize ∧
          flmS a b2j (i + 1) ≤ acc i := by
        rcases hdisj with h0 | h0
        · exact absurd h0 hinotin
        · exact h0
      have hkS : (if j = 0 then 0 else r0 (j - 1)) + 1 ≤
          flmS a b2j (i + 1) := by
        rw [hSi, if_neg (by omega : ¬ j = 0)]
        have := h3 (j - 1)
        omega
      have hkj : (if j = 0 then 0 else r0 (j - 1)) + 1 ≤
          flmS a b2j (j + 1) := by
        rw [if_neg (by omega : ¬ j = 0), hSj]
        have h4j := h4 (j - 1)
        have he : j - 1 + 1 = j := by omega
        rw [he] at h4j
        omega
      have hnowin : ¬ bst.bestsize <
          (if j = 0 then 0 else r0 (j - 1)) + 1 := by
        have := hdone.1
        omega
      rw [if_neg hnowin]
      apply ih _ _ hsort' hmem' hd hb hb0
      · intro j'
        by_cases hj' : j' = j
        · rw [if_pos hj']
          exact hkS
        · rw [if_neg hj']
          exact hacc1 j'
      · intro j'
        by_cases hj' : j' = j
        · rw [if_pos hj']
          subst hj'
          exact hkj
        · rw [if_neg hj']
          exact hacc2 j'
      · refine Or.inr ⟨hdone.1, ?_⟩
        rw [if_neg (by omega : ¬ i = j)]
        exact hdone.2

theorem flmStep (a : List String) (b2j : List (String × List Nat))
    (hall : ∀ s, b2jGet b2j s = posFrom 0 a s ∨ b2jGet b2j s = [])
    (i : Nat) (hi : i < a.length) (st : Flm × (Nat → Nat))
    (hinv : FlmInv a b2j i st) :
    FlmInv a b2j (i + 1)
      (flmInner st.2 0 a.length i (b2jGet b2j (a.getD i ""))
        (st.1, fun _ => 0)) := by
  obtain ⟨hd, hb, h3, h4, h5, h7⟩ := hinv
  rcases hall (a.getD i "") with hpos | hnil
  · have himem : i ∈ posFrom 0 a (a.getD i "") :=
      (posFrom_mem a 0 i _).mpr
        ⟨Nat.zero_le i, by omega, by rw [Nat.sub_zero]⟩
    have hne : b2jGet b2j (a.getD i "") ≠ [] := by
      rw [hpos]
      intro h0
      rw [h0] at himem
      exact List.not_mem_nil i himem
    have hSi := flmS_listed a b2j i hne
    rw [hpos]
    have hres := flmInner_inv a b2j i hi st.2 h3 h4 h7 st.1.bestsize h5 hSi
      (posFrom 0 a (a.getD i "")) st.1 (fun _ => 0)
      (posFrom_sorted a 0 _)
      (by
        intro q hq
        obtain ⟨_, hqlt, hqv⟩ := (posFrom_mem a 0 q _).mp hq
        rw [Nat.sub_zero] at hqv
        refine ⟨by omega, ?_⟩
        apply flmS_listed
        rw [hqv]
        exact hne)
      hd hb (le_refl _)
      (fun j => Nat.zero_le _) (fun j => Nat.zero_le _)
      (Or.inl himem)
    exact hres.1
  · rw [hnil]
    have hS0 : flmS a b2j (i + 1) = 0 := flmS_unlisted a b2j i hnil
    refine ⟨hd, hb, ?_, ?_, ?_, ?_⟩
    · intro j
      exact Nat.zero_le _
    · intro j
      exact Nat.zero_le _
    · intro j hj
      by_cases hji : j < i
      · exact h5 j hji
      · have hje : j = i := by omega
        subst hje
        rw [hS0]
        exact Nat.zero_le _
    · intro j hj
      rw [hS0]
      exact Nat.zero_le _

theorem flmFold_inv (a : List String) (b2j : List (String × List Nat))
    (hall : ∀ s, b2jGet b2j s = posFrom 0 a s ∨ b2jGet b2j s = []) :
    ∀ (m i : Nat) (st : Flm × (Nat → Nat)), i + m = a.length →
      FlmInv a b2j i st →
      FlmInv a b2j a.length ((List.range' i m).foldl
        (fun st i =>
          let r := flmInner st.2 0 a.length i (b2jGet b2j (a.getD i ""))
            (st.1, fun _ => 0)
          (r.1, r.2)) st) := by
  intro m
  induction m with
  | zero =>
    intro i st hlen hinv
    have hie : i = a.length := by omega
    subst hie
    simpa using hinv
  | succ m ih =>
    intro i st hlen hinv
    rw [List.range'_succ, List.foldl_cons]
    apply ih (i + 1) _ (by omega)
    exact flmStep a b2j hall i (by omega) st hinv

theorem flmMain_diag (a : List String) (b2j : List (String × List Nat))
    (hall : ∀ s, b2jGet b2j s = posFrom 0 a s ∨ b2jGet b2j s = []) :
    (flmMain a b2j 0 a.length 0 a.length).besti =
      (flmMain a b2j 0 a.length 0 a.length).bestj ∧
    (flmMain a b2j 0 a.length 0 a.length).besti +
      (flmMain a b2j 0 a.length 0 a.length).bestsize ≤ a.length := by
  have hinit : FlmInv a b2j 0 ((⟨0, 0, 0⟩ : Flm), fun _ => 0) := by
    refine ⟨rfl, by dsimp only; omega, fun j => Nat.le_refl 0,
      fun j => Nat.zero_le _,
      fun j hj => absurd hj (Nat.not_lt_zero j),
      fun j hj => absurd hj (Nat.succ_ne_zero j)⟩
  have h := flmFold_inv a b2j hall a.length 0 (⟨0, 0, 0⟩, fun _ => 0)
    (by omega) hinit
  exact ⟨h.1, h.2.1⟩

theorem extLeftGo_junk_noop (a b : List String) (alo blo fuel : Nat)
    (st : Flm) : extLeftGo a b [] alo blo true fuel st = st := by
  cases fuel with
  | zero => rfl
  | succ f => simp [extLeftGo]

theorem extRightGo_junk_noop (a b : List String) (ahi bhi fuel : Nat)
    (st : Flm) : extRightGo a b [] ahi bhi true fuel st = st := by
  cases fuel with
  | zero => rfl
  | succ f => simp [extRightGo]

theorem extLeftGo_diag (a : List String) : ∀ (d s : Nat),
    extLeftGo a a [] 0 0 false d ⟨d, d, s⟩ = ⟨0, 0, s + d⟩ := by
  intro d
  induction d with
  | zero =>
    intro s
    rfl
  | succ d ih =>
    intro s
    rw [extLeftGo]
    rw [if_pos ⟨Nat.succ_pos d, Nat.succ_pos d, by simp, rfl⟩]
    simp only [Nat.add_sub_cancel]
    rw [ih (s + 1)]
    have he : s + 1 + d = s + (d + 1) := by omega
    rw [he]

theorem extRightGo_diag (a : List String) : ∀ (fuel s : Nat),
    a.length ≤ s + fuel → s ≤ a.length →
    extRightGo a a [] a.length a.length false fuel ⟨0, 0, s⟩ =
      ⟨0, 0, a.length⟩ := by
  intro fuel
  induction fuel with
  | zero =>
    intro s h1 h2
    have hse : s = a.length := by omega
    subst hse
    rfl
  | succ f ih =>
    intro s h1 h2
    by_cases hs : s < a.length
    · rw [extRightGo]
      rw [if_pos ⟨by simpa using hs, by simpa using hs, by simp, rfl⟩]
      exact ih (s + 1) (by omega) (by omega)
    · have hse : s = a.length := by omega
      subst hse
      simp [extRightGo]

theorem find_longest_match_self (a : List String) :
    find_longest_match a a (chainB a) [] 0 a.length 0 a.length =
      ⟨0, 0, a.length⟩ := by
  obtain ⟨hdg, hbd⟩ := flmMain_diag a (chainB a) (chainB_cases a)
  cases hm : flmMain a (chainB a) 0 a.length 0 a.length with
  | mk bi bj bs =>
    rw [hm] at hdg hbd
    dsimp only at hdg hbd
    subst hdg
    unfold find_longest_match
    rw [hm]
    dsimp only
    rw [extLeftGo_diag a bi bs]
    rw [extRightGo_diag a a.length (bs + bi) (by omega) (by omega)]
    rw [extLeftGo_junk_noop, extRightGo_junk_noop]

theorem get_opcodes_self (a : List String) :
    get_opcodes a a = if a.length = 0 then []
      else [⟨OpTag.equal, 0, a.length, 0, a.length⟩] := by
  by_cases hn : a.length = 0
  · rw [if_pos hn]
    have ha : a = [] := List.length_eq_zero.mp hn
    subst ha
    rfl
  · rw [if_neg hn]
    have hblocks : matchingBlocksGo a a (chainB a) []
        (2 * (a.length + a.length) + 1) 0 a.length 0 a.length =
        [(0, 0, a.length)] := by
      simp only [matchingBlocksGo]
      rw [find_longest_match_self]
      rw [if_neg (by simpa using hn)]
      rw [if_neg (by simp)]
      rw [if_neg (by simp)]
      simp
    have hnadj : nonAdjacentGo (0, 0, 0) [(0, 0, a.length)] =
        [(0, 0, a.length)] := by
      rw [nonAdjacentGo]
      rw [if_pos ⟨rfl, rfl⟩]
      rw [nonAdjacentGo]
      rw [if_pos (by simpa using hn)]
      simp
    have hmb : get_matching_blocks a a =
        [(0, 0, a.length), (a.length, a.length, 0)] := by
      rw [get_matching_blocks]
      rw [hblocks]
      have hsort1 : List.insertionSort tripleLe [(0, 0, a.length)] =
          [(0, 0, a.length)] := rfl
      rw [hsort1, hnadj]
      rfl
    rw [get_opcodes, hmb]
    rw [opcodesGo]
    rw [if_neg (by simp), if_neg (by simp), if_neg (by simp)]
    rw [if_pos (by simpa using hn)]
    rw [opcodesGo]
    rw [if_neg (by simp), if_neg (by simp), if_neg (by simp)]
    rw [if_neg (by simp)]
    rw [opcodesGo]
    simp

theorem get_grouped_opcodes_self (a : List String) :
    get_grouped_opcodes 3 a a = [] := by
  rw [get_grouped_opcodes]
  rw [get_opcodes_self]
  by_cases hn : a.length = 0
  · rw [if_pos hn]
    rfl
  · rw [if_neg hn]
    rw [if_neg (by simp)]
    rw [trimHead]
    simp only [Nat.zero_max]
    rw [trimTail]
    simp only [List.getLast?_singleton, List.dropLast_single,
      List.nil_append]
    rw [groupGo]
    rw [if_neg (by
      rintro ⟨_, hlt⟩
      dsimp only at hlt
      omega)]
    rw [List.nil_append]
    rw [groupGo]
    rw [finalGroup]
    rw [if_pos rfl]

theorem unified_diff_self (a : List String) (ff tf lterm : String) :
    unified_diff a a ff tf lterm 3 = [] := by
  simp only [unified_diff, get_grouped_opcodes_self]

/-- C10.  The two diff implementations are extensionally equal
(`FileService.generate_diff` and `DiffGenerator.generate_diff` make the
character-for-character same `difflib.unified_diff` call with `old`/`new`
headers and join it the same way), and both return the empty string on
equal inputs (on equal sequences `find_longest_match` returns the whole
range, so `get_grouped_opcodes` yields no group). -/
theorem c10_diff_implementations_agree :
    (∀ old_content new_content : String,
      FileService.generate_diff old_content new_content =
        DiffGenerator.generate_diff old_content new_content) ∧
    (∀ content : String,
      FileService.generate_diff content content = "" ∧
      DiffGenerator.generate_diff content content = "") := by
  refine ⟨fun _ _ => rfl, fun content => ⟨?_, ?_⟩⟩
  · simp only [FileService.generate_diff, unified_diff_self]
    rfl
  · simp only [DiffGenerator.generate_diff, unified_diff_self]
    rfl

end CodeSnap
